import Mathlib

/-!
Boot logger (`debug-tools/bootlogger/Logger.cpp`).

A shallow embedding of the log collector: the two line filters with the
regular expressions they search for, the file-backed output context, the
per-line fan-out of a logger context, and the relevant parts of `main`.

`std::string` values are lists of characters.  Calls into the C++ standard
library (`std::regex_search`, `std::string::find`, `fgets`, `std::getline`,
`open`/`write`/`fstat`/`close`) are given by small executable models placed
next to the code that calls them.
-/

namespace Logger

/-- A `std::string`: the sequence of its `char`s. -/
abbrev Str := List Char

/-! ## `std::string` operations used by the filters -/

/-- The call `s.find(needle)`: the lowest position at which `needle` occurs in `s`;
`none` stands for `std::string::npos`. -/
def find : Str → Str → Option Nat
  | [], needle => if needle.isPrefixOf [] then some 0 else none
  | c :: s, needle =>
    if needle.isPrefixOf (c :: s) then some 0 else (find s needle).map (· + 1)

/-- The call `s.find_first_of(ch)`: the position of the first `ch`, `none` for `npos`. -/
def find_first_of : Str → Char → Option Nat
  | [], _ => none
  | c :: s, ch => if c = ch then some 0 else (find_first_of s ch).map (· + 1)

/-- The call `s.substr(0, n)` where `n` may be `npos` (then the whole string). -/
def substr0 (s : Str) : Option Nat → Str
  | none => s
  | some n => s.take n

/-! ## Regular expressions (ECMAScript grammar of `std::regex`)

Only the constructs that occur in the two patterns of the program: literal
characters, the classes `\s` and `\w`, concatenation and the greedy `+`. -/

/-- Abstract syntax of the patterns. -/
inductive RegEx where
  | lit (c : Char)
  | space
  | word
  | cat (r q : RegEx)
  | plus (r : RegEx)
  deriving Repr

/-- The class `\s` for `char` in the classic locale. -/
def isSpaceChar (c : Char) : Bool :=
  c = ' ' || c = '\t' || c = '\n' || c = '\x0b' || c = '\x0c' || c = '\r'

/-- The class `\w` for `char` in the classic locale: letters, digits and `_`. -/
def isWordChar (c : Char) : Bool :=
  c.isAlphanum || c = '_'

/-- Greedy iteration: after one match of the body, further iterations are tried
before stopping.  `n` bounds the number of iterations. -/
def plusAux (step : Str → List Str) : Nat → Str → List Str
  | 0, _ => []
  | n + 1, s => (step s).flatMap (fun t => plusAux step n t ++ [t])

/-- The backtracking matcher: `r.run s` lists, in the order in which the
matcher tries them, the remainders of `s` after a match of `r` at the start of
`s`.  The first entry is the match `std::regex` reports. -/
def RegEx.run : RegEx → Str → List Str
  | .lit c, s => match s with
    | x :: t => if x = c then [t] else []
    | [] => []
  | .space, s => match s with
    | x :: t => if isSpaceChar x then [t] else []
    | [] => []
  | .word, s => match s with
    | x :: t => if isWordChar x then [t] else []
    | [] => []
  | .cat r q, s => (r.run s).flatMap q.run
  | .plus r, s => plusAux r.run s.length s

/-- The part of `std::smatch` the program reads: the text before the match and
the text after it (`suffix()`). -/
structure SMatch where
  pre : Str
  suffix : Str
  deriving DecidableEq, Repr

/-- The call `std::regex_search(line, m, r)`: the leftmost match; `none` when the call
returns false. -/
def regex_search (r : RegEx) : Str → Option SMatch
  | [] => match r.run [] with
    | rest :: _ => some ⟨[], rest⟩
    | [] => none
  | c :: t => match r.run (c :: t) with
    | rest :: _ => some ⟨[], rest⟩
    | [] => (regex_search r t).map (fun m => ⟨c :: m.pre, m.suffix⟩)

/-- Concatenation of a non-empty sequence of patterns. -/
def RegEx.seq (r : RegEx) (rs : List RegEx) : RegEx :=
  rs.foldl RegEx.cat r

/-- The pattern matching exactly the characters `c :: cs`. -/
def RegEx.str (c : Char) (cs : Str) : RegEx :=
  RegEx.seq (.lit c) (cs.map RegEx.lit)

/-- The pattern `avc:\s+denied\s+\{(\s\w+)+\s\}\sfor\s`. -/
def kAvcMessageRegEX : RegEx :=
  RegEx.seq (RegEx.str 'a' "vc:".toList)
    [.plus .space, RegEx.str 'd' "enied".toList, .plus .space, .lit '{',
     .plus (.cat .space (.plus .word)), .space, .lit '}', .space,
     RegEx.str 'f' "or".toList, .space]

/-- The pattern `libc\s+:\s+\w+\s\w+\s\w+\s\w+\s\"`. -/
def kPropertyAccessRegEX : RegEx :=
  RegEx.seq (RegEx.str 'l' "ibc".toList)
    [.plus .space, .lit ':', .plus .space,
     .plus .word, .space, .plus .word, .space, .plus .word, .space, .plus .word, .space,
     .lit '"']

/-! ## The filters -/

/-- Modelled from the spec: the record type `AvcContext` is declared in
`LoggerInternal.h`, which is not among the sources.  The spec gives a
correlation record a subject context, an object context, an object class and a
set of requested permissions. -/
structure AvcContext where
  scontext : Str
  tcontext : Str
  tclass : Str
  operation : List Str
  deriving DecidableEq, Repr

/-- The shared buffer `AvcContexts` (`std::vector<AvcContext>`). -/
abbrev AvcContexts := List AvcContext

/-- The method `AvcFilterContext::filter`.  `parseOneAvcContext` is declared in
`LoggerInternal.h` and enters as a parameter; `_ctx` is the buffer the filter
points to (`none` for a null pointer).  Returns the result and the buffer
afterwards.  The match flag `format_sed` only affects `regex_replace`. -/
def AvcFilterContext.filter (parseOneAvcContext : Str → AvcContexts → AvcContexts)
    (_ctx : Option AvcContexts) (line : Str) : Bool × Option AvcContexts :=
  let «match» := (regex_search kAvcMessageRegEX line).isSome
  let «match» := «match» && (find line "untrusted_app".toList == none)
  match «match», _ctx with
  | true, some ctx => («match», some (parseOneAvcContext line ctx))
  | _, _ => («match», _ctx)

/-- The method `libcPropFilterContext::filter`.  `propsDenied` is the function-local static
vector; the function returns the result and the vector afterwards. -/
def libcPropFilterContext.filter (propsDenied : List Str) (line : Str) :
    Bool × List Str :=
  match regex_search kPropertyAccessRegEX line with
  | some kPropMatch =>
    let prop := kPropMatch.suffix
    let prop := substr0 prop (find_first_of prop '"')
    if find prop "ctl.".toList = some 0 then (true, propsDenied)
    else if prop ∉ propsDenied then (true, propsDenied ++ [prop])
    else (false, propsDenied)
  | none => (false, propsDenied)

/-- The two filter classes derived from `LogFilterContext`; `main` creates one
object of each, which is what a logger context uses as the key of `filters`. -/
inductive LogFilterContext where
  | AvcFilterContext
  | libcPropFilterContext
  deriving DecidableEq, Repr

/-- The member `kFilterName` set by the two constructors. -/
def LogFilterContext.kFilterName : LogFilterContext → Str
  | .AvcFilterContext => "avc".toList
  | .libcPropFilterContext => "libc_props".toList

/-- The mutable state behind the filter objects: the buffer `_ctx` of the AVC
filter points to (`none` for a null `_ctx`) and the static `propsDenied`. -/
structure FilterState where
  _ctx : Option AvcContexts
  propsDenied : List Str
  deriving DecidableEq, Repr

/-- The virtual call `f.first->filter(fline)`. -/
def LogFilterContext.filter (parseOneAvcContext : Str → AvcContexts → AvcContexts)
    (f : LogFilterContext) (st : FilterState) (line : Str) : Bool × FilterState :=
  match f with
  | .AvcFilterContext =>
    let r := AvcFilterContext.filter parseOneAvcContext st._ctx line
    (r.1, { st with _ctx := r.2 })
  | .libcPropFilterContext =>
    let r := libcPropFilterContext.filter st.propsDenied line
    (r.1, { st with propsDenied := r.2 })

/-! ## Files

The file system as the program sees it through `open`, `write`, `fstat`,
`std::remove` and `close`: a directory from paths to files, the contents of the
files, and the descriptor table of the process. -/

/-- An open file description: the file it refers to and the file offset. -/
structure OpenFile where
  ino : Nat
  offset : Nat
  deriving DecidableEq, Repr

/-- State of the file system and of the process's descriptor table.  `refuses`
tells on which paths `open(path, O_RDWR | O_CREAT, 0644)` fails. -/
structure World where
  dir : Str → Option Nat
  data : Nat → Str
  nextIno : Nat
  fds : Nat → Option OpenFile
  fdLimit : Nat
  refuses : Str → Bool

/-- The file system as a map from paths to byte strings. -/
def World.fileAt (w : World) (path : Str) : Option Str :=
  (w.dir path).map w.data

/-- The open file description behind a descriptor, if the descriptor is valid. -/
def World.fdGet (w : World) (fd : Int) : Option OpenFile :=
  if fd < 0 then none else w.fds fd.toNat

/-- Result of writing `data` at offset `off` into a file holding `content`. -/
def pwrite (content : Str) (off : Nat) (data : Str) : Str :=
  content.take off ++ List.replicate (off - content.length) '\x00' ++ data
    ++ content.drop (off + data.length)

/-- The lowest descriptor not in use, below the limit of the process. -/
def World.lowestFree (w : World) : Option Nat :=
  (List.range w.fdLimit).find? (fun i => (w.fds i).isNone)

/-- The call `open(path, O_RDWR | O_CREAT, 0644)`: returns the new descriptor or
`-1`.  An existing file is opened as it is (there is no `O_TRUNC`); a missing
one is created empty.  The offset of the new description is 0. -/
def World.open (w : World) (path : Str) : World × Int :=
  if w.refuses path then (w, -1)
  else match w.lowestFree with
    | none => (w, -1)
    | some fd =>
      match w.dir path with
      | some ino =>
        ({ w with fds := fun i => if i = fd then some ⟨ino, 0⟩ else w.fds i }, (fd : Int))
      | none =>
        ({ w with
            dir := fun q => if q = path then some w.nextIno else w.dir q
            data := fun i => if i = w.nextIno then [] else w.data i
            nextIno := w.nextIno + 1
            fds := fun i => if i = fd then some ⟨w.nextIno, 0⟩ else w.fds i }, (fd : Int))

/-- The call `write(fd, data, data.size())`: `-1` on an invalid descriptor,
otherwise the data is stored at the file offset, the offset advances, and the
number of bytes is returned. -/
def World.write (w : World) (fd : Int) (data : Str) : World × Int :=
  match w.fdGet fd with
  | none => (w, -1)
  | some f =>
    ({ w with
        data := fun i => if i = f.ino then pwrite (w.data f.ino) f.offset data else w.data i
        fds := fun i => if i = fd.toNat then some ⟨f.ino, f.offset + data.length⟩ else w.fds i },
      (data.length : Int))

/-- The call `fstat(fd, &buf)`: `none` when it fails, else `buf.st_size`. -/
def World.fstat (w : World) (fd : Int) : Option Nat :=
  (w.fdGet fd).map (fun f => (w.data f.ino).length)

/-- The call `std::remove(path)`. -/
def World.remove (w : World) (path : Str) : World :=
  { w with dir := fun q => if q = path then none else w.dir q }

/-- The call `close(fd)`. -/
def World.close (w : World) (fd : Int) : World :=
  if fd < 0 then w else { w with fds := fun i => if i = fd.toNat then none else w.fds i }

/-- The operation `std::filesystem::path::append` on a POSIX system, on the path strings. -/
def pathAppend (dir p : Str) : Str :=
  if p.head? = some '/' then p
  else if dir = [] ∨ dir.getLast? = some '/' then dir ++ p
  else dir ++ '/' :: p

/-! ## `OutputContext` -/

/-- The members of `OutputContext`. -/
structure OutputContext where
  kFilePath : Str
  kFileName : Str
  fd : Int
  len : Int
  is_filter : Bool
  deriving DecidableEq, Repr

/-- The constructor `OutputContext(logDir, filename)`. -/
def OutputContext.new (logDir filename : Str) : OutputContext :=
  { kFileName := filename
    kFilePath := pathAppend logDir (filename ++ ".txt".toList)
    fd := -1, len := 0, is_filter := false }

/-- The constructor `OutputContext(logDir, filename, isFilter)`. -/
def OutputContext.newFilter (logDir filename : Str) (isFilter : Bool) : OutputContext :=
  { OutputContext.new logDir filename with is_filter := isFilter }

/-- The method `openOutput()`: the world and the context afterwards, and the result. -/
def OutputContext.openOutput (o : OutputContext) (w : World) :
    (World × OutputContext) × Bool :=
  let r := w.open o.kFilePath
  ((r.1, { o with fd := r.2 }), decide (r.2 ≥ 0))

/-- The conversion `operator bool()`. -/
def OutputContext.toBool (o : OutputContext) : Bool := decide (o.fd ≥ 0)

/-- The method `writeToOutput(data)`.  `BUF_SIZE` comes from `LoggerInternal.h`; `fsync`
does not change what the file holds. -/
def OutputContext.writeToOutput (BUF_SIZE : Int) (o : OutputContext) (w : World)
    (data : Str) : World × OutputContext :=
  let r1 := w.write o.fd data
  let len := o.len + r1.2
  let r2 := r1.1.write o.fd ['\n']
  let len := len + r2.2
  if len > BUF_SIZE then (r2.1, { o with len := 0 }) else (r2.1, { o with len := len })

/-- The destructor `~OutputContext()`. -/
def OutputContext.destroy (o : OutputContext) (w : World) : World × OutputContext :=
  let w1 := match w.fstat o.fd with
    | some 0 => w.remove o.kFilePath
    | _ => w
  (w1.close o.fd, { o with fd := -1 })

/-- Successive calls `writeToOutput(l)` for the entries of a list. -/
def OutputContext.writeAll (BUF_SIZE : Int) :
    List Str → OutputContext → World → World × OutputContext
  | [], o, w => (w, o)
  | l :: ls, o, w =>
    let r := o.writeToOutput BUF_SIZE w l
    OutputContext.writeAll BUF_SIZE ls r.2 r.1

/-- A sink's life: `openOutput()`, the writes `ls` when the open succeeded, the
destructor.  `none` when the open fails. -/
def OutputContext.session (BUF_SIZE : Int) (o : OutputContext) (w : World)
    (ls : List Str) : Option World :=
  let r := o.openOutput w
  if r.2 then
    let r2 := OutputContext.writeAll BUF_SIZE ls r.1.2 r.1.1
    some (r2.2.destroy r2.1).1
  else none

/-! ## `LoggerContext` -/

/-- The members of `LoggerContext` that hold data: the `OutputContext` base, the
stream name, and the registered filters with their outputs.  `filters` is a
`std::unordered_map`; the list gives its entries in iteration order. -/
structure LoggerContext extends OutputContext where
  name : Str
  filters : List (LogFilterContext × OutputContext)
  deriving Repr

/-- The constructor `LoggerContext(op, cl, logDir, name)`, without the two
function pointers. -/
def LoggerContext.new (logDir name : Str) : LoggerContext :=
  { OutputContext.new logDir name with name := name, filters := [] }

/-- The method `registerLogFilter(logDir, ctx)`: a null `ctx` is ignored, and `emplace`
inserts nothing when the key is present already. -/
def LoggerContext.registerLogFilter (t : LoggerContext) (logDir : Str)
    (ctx : Option LogFilterContext) : LoggerContext :=
  match ctx with
  | none => t
  | some f =>
    if f ∈ t.filters.map Prod.fst then t
    else { t with filters := t.filters ++
            [(f, OutputContext.newFilter logDir (f.kFilterName ++ '.' :: t.name) true)] }

/-- The loop over `filters` in the body of `startLogger` (lines 196 to 201): each
filter is called on a copy of the line, and the line is written to the filter's
output when the filter returns true. -/
def LoggerContext.runFilters (BUF_SIZE : Int)
    (parseOneAvcContext : Str → AvcContexts → AvcContexts) (line : Str) :
    List (LogFilterContext × OutputContext) → World → FilterState →
      List (LogFilterContext × OutputContext) × World × FilterState
  | [], w, st => ([], w, st)
  | (f, o) :: rest, w, st =>
    let fline := line
    let r := f.filter parseOneAvcContext st fline
    let wo := if r.1 then o.writeToOutput BUF_SIZE w fline else (w, o)
    let rec_ := LoggerContext.runFilters BUF_SIZE parseOneAvcContext line rest wo.1 r.2
    ((f, wo.2) :: rec_.1, rec_.2.1, rec_.2.2)

/-- The work done for one `line` obtained by `std::getline` (lines 196 to 202):
the filters, then the write to the logger's own output. -/
def LoggerContext.processLine (BUF_SIZE : Int)
    (parseOneAvcContext : Str → AvcContexts → AvcContexts)
    (t : LoggerContext) (w : World) (st : FilterState) (line : Str) :
    LoggerContext × World × FilterState :=
  let r := LoggerContext.runFilters BUF_SIZE parseOneAvcContext line t.filters w st
  let wo := t.toOutputContext.writeToOutput BUF_SIZE r.2.1 line
  ({ t with toOutputContext := wo.2, filters := r.1 }, wo.1, r.2.2)

/-- The inner loop `while (std::getline(ss, line))` over the lines of one buffer. -/
def LoggerContext.processLines (BUF_SIZE : Int)
    (parseOneAvcContext : Str → AvcContexts → AvcContexts) :
    List Str → LoggerContext → World → FilterState → LoggerContext × World × FilterState
  | [], t, w, st => (t, w, st)
  | l :: ls, t, w, st =>
    let r := t.processLine BUF_SIZE parseOneAvcContext w st l
    LoggerContext.processLines BUF_SIZE parseOneAvcContext ls r.1 r.2.1 r.2.2

/-- What one `fgets` call stores: at most `k` characters, ending after the first
newline. -/
def takeLine : Nat → Str → Str
  | 0, _ => []
  | _, [] => []
  | k + 1, c :: s => if c = '\n' then [c] else c :: takeLine k s

/-- The call `fgets(buf, n, fp)` on a stream whose remaining content is `fp`: `none` for
a null result (end of input), otherwise the characters stored in `buf` and the
rest of the stream. -/
def fgets (n : Nat) (fp : Str) : Option (Str × Str) :=
  match fp with
  | [] => none
  | _ :: _ =>
    let got := takeLine (n - 1) fp
    some (got, fp.drop got.length)

/-- The `std::string` made from the character array `buf`: up to the first NUL. -/
def cstr (buf : Str) : Str :=
  buf.takeWhile (· ≠ '\x00')

/-- The lines successive calls `std::getline(ss, line)` yield on a stream holding
`ss`, until the call fails; `cur` is the line being collected. -/
def getlinesAux : Str → Str → List Str
  | cur, [] => if cur = [] then [] else [cur]
  | cur, c :: s => if c = '\n' then cur :: getlinesAux [] s else getlinesAux (cur ++ [c]) s

/-- The lines of a buffer, as the inner loop of `startLogger` sees them. -/
def getlines (ss : Str) : List Str :=
  getlinesAux [] ss

/-- The loop `while (*run)` of `startLogger` (lines 190 to 205).  `runs` is the
number of times the flag is read as true before it is read as false; `fp` is
what the source still has to deliver.  Returns the rest of the source and the
state afterwards. -/
def LoggerContext.readLoop (BUF_SIZE : Int)
    (parseOneAvcContext : Str → AvcContexts → AvcContexts) :
    Nat → Str → LoggerContext → World → FilterState →
      Str × LoggerContext × World × FilterState
  | 0, fp, t, w, st => (fp, t, w, st)
  | runs + 1, fp, t, w, st =>
    match fgets 512 fp with
    | none => LoggerContext.readLoop BUF_SIZE parseOneAvcContext runs fp t w st
    | some (buf, rest) =>
      let r := LoggerContext.processLines BUF_SIZE parseOneAvcContext
        (getlines (cstr buf)) t w st
      LoggerContext.readLoop BUF_SIZE parseOneAvcContext runs rest r.1 r.2.1 r.2.2

/-- The values of `line` the loop of `startLogger` handles, in order: they
depend on the source and on the number of rounds only. -/
def linesRead : Nat → Str → List Str
  | 0, _ => []
  | runs + 1, fp =>
    match fgets 512 fp with
    | none => linesRead runs fp
    | some (buf, rest) => getlines (cstr buf) ++ linesRead runs rest

/-- What the source still has to deliver after the rounds of the loop of
`startLogger`: it depends on the source and on the number of rounds only. -/
def restAfter : Nat → Str → Str
  | 0, fp => fp
  | runs + 1, fp =>
    match fgets 512 fp with
    | none => restAfter runs fp
    | some (_, rest) => restAfter runs rest

/-- The loop `for (auto &f : filters) f.second.openOutput();` of `startLogger`
(lines 180 to 182). -/
def LoggerContext.openFilters :
    List (LogFilterContext × OutputContext) → World →
      List (LogFilterContext × OutputContext) × World
  | [], w => ([], w)
  | (f, o) :: rest, w =>
    let r := o.openOutput w
    let rec_ := LoggerContext.openFilters rest r.1.1
    ((f, r.1.2) :: rec_.1, rec_.2)

/-- The loop that erases the entries of `filters` whose output is not open (lines
184 to 189). -/
def LoggerContext.eraseFailed (fs : List (LogFilterContext × OutputContext)) :
    List (LogFilterContext × OutputContext) :=
  fs.filter (fun a => a.2.toBool)

/-- What a run of `startLogger` leaves behind: the logger context, the world, the
state of the filters, the stream `openSource` returned with what has not been
read from it (`none` when it returned null), and how often `closeSource` was
called. -/
structure StartLoggerResult where
  ctx : LoggerContext
  world : World
  filterState : FilterState
  source : Option Str
  closeSourceCalls : Nat

/-- The method `startLogger(run)` (lines 175 to 215).  `openSource` is the result
of the call of the function pointer of that name: the content of the stream, or
`none` for a null pointer.  `runs` is the number of times `*run` is read as true
before it is read as false. -/
def LoggerContext.startLogger (BUF_SIZE : Int)
    (parseOneAvcContext : Str → AvcContexts → AvcContexts)
    (openSource : Option Str) (runs : Nat)
    (t : LoggerContext) (w : World) (st : FilterState) : StartLoggerResult :=
  match openSource with
  | some fp =>
    let r := t.toOutputContext.openOutput w
    let t := { t with toOutputContext := r.1.2 }
    if r.2 then
      let fo := LoggerContext.openFilters t.filters r.1.1
      let t := { t with filters := LoggerContext.eraseFailed fo.1 }
      let l := LoggerContext.readLoop BUF_SIZE parseOneAvcContext runs fp t fo.2 st
      { ctx := l.2.1, world := l.2.2.1, filterState := l.2.2.2, source := some l.1,
        closeSourceCalls := 1 }
    else
      { ctx := t, world := r.1.1, filterState := st, source := some fp,
        closeSourceCalls := 1 }
  | none =>
    { ctx := t, world := w, filterState := st, source := none, closeSourceCalls := 0 }

/-! ## `main` -/

/-- Modelled from the spec: the enumeration `ConfigValue` is declared in
`LoggerInternal.h`, which is not among the sources.  The spec lets a config
symbol be built-in, a module, or not set. -/
inductive ConfigValue where
  | UNSET
  | BUILT_IN
  | MODULE
  deriving DecidableEq, Repr

/-- The audit probe of `main` (lines 397 to 406): `rc` is the result of
`ReadKernelConfig` and `configAudit` the value of `kConfig["CONFIG_AUDIT"]`;
the two shared pointers are reset only in the inner `else`. -/
def auditProbe (rc : Int) (configAudit : ConfigValue)
    (kAvcFilter : Option LogFilterContext) (kAvcCtx : Option AvcContexts) :
    Option LogFilterContext × Option AvcContexts :=
  if rc = 0 then
    if configAudit = ConfigValue.BUILT_IN then (kAvcFilter, kAvcCtx)
    else (none, none)
  else (kAvcFilter, kAvcCtx)

/-- What `main` has set up when it starts waiting for the end of the run. -/
structure MainSetup where
  kLogDir : Str
  kDmesgCtx : LoggerContext
  dmesgStarted : Bool
  kLogcatCtx : LoggerContext
  kAvcFilter : Option LogFilterContext
  kAvcCtx : Option AvcContexts
  deriving Repr

/-- The call `std::to_string(n)` for a value that is not negative. -/
def to_string (n : Nat) : Str :=
  (Nat.repr n).toList

/-- The function `recordBootTime()` (lines 310 to 324): the text it passes to
`WriteStringToFile(logbuf, "/dev/kmsg")`, or `none` when it writes nothing.
`sysinfo` is `x.uptime` in seconds when the call `sysinfo(&x)` returns 0 and
`none` when it fails; `LOG_TAG` comes from `LoggerInternal.h`. -/
def recordBootTime (LOG_TAG : Str) (sysinfo : Option Nat) : Option Str :=
  match sysinfo with
  | some uptime =>
    let logbuf := LOG_TAG ++ ": Boot completed in ".toList
    let mins := uptime / 60
    let logbuf := if mins > 0 then logbuf ++ (to_string mins ++ ['m'] ++ [' ']) else logbuf
    let logbuf := logbuf ++ (to_string (uptime - mins * 60) ++ ['s'])
    some logbuf
  | none => none

/-- The value `EXIT_FAILURE`. -/
def EXIT_FAILURE : Int := 1

/-- The control flow of `main` from its start to the start of the threads (lines
336 to 424).  Inputs: `argc`, `argv[1]`, whether `LOGGER_MODE_SYSTEM` is set,
the result of `ReadKernelConfig` and the value of `CONFIG_AUDIT`, whether
`create_directory` sets an error, and the property `ro.logd.kernel`.  The
clearing of the log directory (lines 375 to 394) acts on the file system only.
An early `return` is `Except.error` with the exit code. -/
def mainSetup (argc : Nat) (argv1 : Str) (system_log : Bool) (rc : Int)
    (configAudit : ConfigValue) (createDirectoryFails : Bool) (roLogdKernel : Bool) :
    Except Int MainSetup :=
  if argc ≠ 2 then .error EXIT_FAILURE
  else
    let kLogRoot := argv1
    if kLogRoot = [] then .error EXIT_FAILURE
    else
      let kLogDir := pathAppend kLogRoot (if system_log then "system".toList else "boot".toList)
      let kDmesgCtx := LoggerContext.new kLogDir "dmesg".toList
      let kLogcatCtx := LoggerContext.new kLogDir "logcat".toList
      let kAvcCtx : Option AvcContexts := some []
      let kAvcFilter := some LogFilterContext.AvcFilterContext
      let kLibcPropsFilter := some LogFilterContext.libcPropFilterContext
      let probe := auditProbe rc configAudit kAvcFilter kAvcCtx
      let kAvcFilter := probe.1
      let kAvcCtx := probe.2
      if createDirectoryFails then .error EXIT_FAILURE
      else
        let kDmesgCtx :=
          if !roLogdKernel then kDmesgCtx.registerLogFilter kLogDir kAvcFilter else kDmesgCtx
        let kLogcatCtx := kLogcatCtx.registerLogFilter kLogDir kAvcFilter
        let kLogcatCtx := kLogcatCtx.registerLogFilter kLogDir kLibcPropsFilter
        .ok { kLogDir := kLogDir, kDmesgCtx := kDmesgCtx, dmesgStarted := !roLogdKernel,
              kLogcatCtx := kLogcatCtx, kAvcFilter := kAvcFilter, kAvcCtx := kAvcCtx }

/-- Modelled from the spec: `operator+=` on `AvcContext` is declared in
`LoggerInternal.h`, which is not among the sources.  The spec's merge: if
subject, object and class are equal, the other record's permissions are united
into this record's; otherwise nothing changes. -/
def AvcContext.merge (e1 e2 : AvcContext) : AvcContext :=
  if e1.scontext = e2.scontext ∧ e1.tcontext = e2.tcontext ∧ e1.tclass = e2.tclass then
    { e1 with operation := e1.operation ++ e2.operation.filter (fun p => p ∉ e1.operation) }
  else e1

/-- The body of the inner loop of the merge pass for `e1` at index `i` and `e2`
at index `j`: nothing when both are the same element, else `e1 += e2`. -/
def mergeStep (i : Nat) (buf : AvcContexts) (j : Nat) : AvcContexts :=
  if i = j then buf
  else match buf[i]?, buf[j]? with
    | some e1, some e2 => buf.set i (e1.merge e2)
    | _, _ => buf

/-- The inner loop `for (auto& e2 : *kAvcCtx)` for the element at index `i`. -/
def mergeRow (buf : AvcContexts) (i : Nat) : AvcContexts :=
  (List.range buf.length).foldl (mergeStep i) buf

/-- The merge pass of `main` (lines 442 to 447). -/
def mergePass (buf : AvcContexts) : AvcContexts :=
  (List.range buf.length).foldl mergeRow buf

/-- The deduplicated allow rules the last block of `main` computes (lines 442 to
453): the merge pass, one rule text per record, `eraseDuplicates`.
`writeAllowRules` and `eraseDuplicates` are declared in `LoggerInternal.h` and
enter as parameters. -/
def allowRules (writeAllowRules : AvcContext → Str)
    (eraseDuplicates : List Str → List Str) (ctx : AvcContexts) : List Str :=
  eraseDuplicates ((mergePass ctx).map writeAllowRules)

/-- The last block of `main` (lines 439 to 456), run on the world the joined
threads leave behind.  `seGenCtx` is constructed, written to and destroyed at
the end of the block; `openOutput` is not called on it. -/
def correlatorPass (BUF_SIZE : Int) (writeAllowRules : AvcContext → Str)
    (eraseDuplicates : List Str → List Str) (kLogDir : Str)
    (kAvcCtx : Option AvcContexts) (w : World) : World :=
  match kAvcCtx with
  | none => w
  | some ctx =>
    let seGenCtx := OutputContext.new kLogDir "sepolicy.gen.txt".toList
    let allowrules := allowRules writeAllowRules eraseDuplicates ctx
    let r := OutputContext.writeAll BUF_SIZE allowrules seGenCtx w
    (r.2.destroy r.1).1

/-- The pattern a filter searches for. -/
def LogFilterContext.pattern : LogFilterContext → RegEx
  | .AvcFilterContext => kAvcMessageRegEX
  | .libcPropFilterContext => kPropertyAccessRegEX

/-- A world without files and without open descriptors, in which every `open`
is permitted. -/
def World.empty : World :=
  { dir := fun _ => none, data := fun _ => [], nextIno := 0, fds := fun _ => none,
    fdLimit := 64, refuses := fun _ => false }

/-- The file a descriptor refers to. -/
def World.inoOf (w : World) (fd : Int) : Option Nat :=
  (w.fdGet fd).map (·.ino)

/-- What a step that writes only through descriptors of other files leaves
untouched, from the point of view of the file `ino`. -/
structure Frame (ino : Nat) (w w' : World) : Prop where
  inoOf : ∀ fd, w'.inoOf fd = w.inoOf fd
  dir : w'.dir = w.dir
  data : w'.data ino = w.data ino
  fd : ∀ fd, w.inoOf fd = some ino → w'.fdGet fd = w.fdGet fd

/-- The state of a logger context in its read loop, seen from its own output:
the descriptor is open on file `ino`, `out` has been written through it since
the offset was `off0` and the file held `c0`, and no filter output is open on
the same file. -/
def Tailing (t : LoggerContext) (w : World) (ino off0 : Nat) (c0 out : Str) : Prop :=
  w.fdGet t.fd = some ⟨ino, off0 + out.length⟩ ∧
  w.data ino = pwrite c0 off0 out ∧
  ∀ fd ∈ t.filters.map (fun a => a.2.fd), w.inoOf fd ≠ some ino

/-- A world in which descriptor 3 is open on the empty file `/log/boot/logcat.txt`
and descriptor 4 on the empty file `/log/boot/libc_props.logcat.txt`. -/
def World.sample : World :=
  { dir := fun p =>
      if p = "/log/boot/logcat.txt".toList then some 0
      else if p = "/log/boot/libc_props.logcat.txt".toList then some 1 else none
    data := fun _ => []
    nextIno := 2
    fds := fun i => if i = 3 then some ⟨0, 0⟩ else if i = 4 then some ⟨1, 0⟩ else none
    fdLimit := 64
    refuses := fun _ => false }

/-- The logcat context of `main` in its read loop in `World.sample`, with the
property filter attached. -/
def LoggerContext.sample : LoggerContext :=
  { OutputContext.new "/log/boot".toList "logcat".toList with
    fd := 3
    name := "logcat".toList
    filters := [(LogFilterContext.libcPropFilterContext,
      { OutputContext.newFilter "/log/boot".toList "libc_props.logcat".toList true with
        fd := 4 })] }

/-- A world in which `/log/boot/dmesg.txt` exists already and holds `old!`, with
no open descriptors. -/
def World.stale : World :=
  { dir := fun p => if p = "/log/boot/dmesg.txt".toList then some 0 else none
    data := fun i => if i = 0 then "old!".toList else []
    nextIno := 1
    fds := fun _ => none
    fdLimit := 64
    refuses := fun _ => false }

/-- A world without files in which every `open` fails. -/
def World.readOnly : World :=
  { dir := fun _ => none, data := fun _ => [], nextIno := 0, fds := fun _ => none,
    fdLimit := 64, refuses := fun _ => true }

/-- The logcat context of `main` as constructed, before `startLogger`: nothing is
open. -/
def LoggerContext.fresh : LoggerContext :=
  (LoggerContext.new "/log/boot".toList "logcat".toList).registerLogFilter
    "/log/boot".toList (some LogFilterContext.libcPropFilterContext)

/-- The identity of a denial: subject, object and class. -/
def AvcContext.key (e : AvcContext) : Str × Str × Str :=
  (e.scontext, e.tcontext, e.tclass)

/-- Membership in a group: `p` is a permission of some record of `orig` with identity `k`. -/
def InGroup (orig : AvcContexts) (k : Str × Str × Str) (p : Str) : Prop :=
  ∃ o ∈ orig, o.key = k ∧ p ∈ o.operation

/-- What every stage of the merge pass keeps true of the buffer `b`, relative to
the buffer `orig` the pass started from: same length, and position by position
the same identity, no permission lost, and no permission from outside the
group. -/
def MergeInv (orig b : AvcContexts) : Prop :=
  b.length = orig.length ∧
  ∀ (idx : Nat) (e o : AvcContext), b[idx]? = some e → orig[idx]? = some o →
    e.key = o.key ∧ (∀ p ∈ o.operation, p ∈ e.operation) ∧
    (∀ p ∈ e.operation, InGroup orig o.key p)

/-- The record at position `idx` of `b` holds every permission of its group. -/
def MergeDone (orig b : AvcContexts) (idx : Nat) : Prop :=
  ∀ e : AvcContext, b[idx]? = some e → ∀ p, InGroup orig e.key p → p ∈ e.operation

/-- The pieces into which a line followed by its newline is cut: a line of at
most 510 characters is one piece, the line with its newline; of a longer line
the first 511 characters are a piece and what follows them is cut in the same
way.  `fuel` bounds the number of pieces. -/
def lineChunksAux : Nat → Str → List Str
  | 0, _ => []
  | fuel + 1, l =>
    if l.length ≤ 510 then [l ++ ['\n']]
    else l.take 511 :: lineChunksAux fuel (l.drop 511)

/-- The pieces of a line followed by its newline. -/
def lineChunks (l : Str) : List Str :=
  lineChunksAux (l.length + 1) l

/-- The record a piece stands for: the piece without its newline. -/
def chunkRecord (c : Str) : Str :=
  c.takeWhile (· ≠ '\n')

/-! ## Words of a pattern

The set of strings a pattern matches, used to reason about the matcher. -/

/-- The relation `Matches r u`: the string `u` as a whole is matched by `r`. -/
inductive RegEx.Matches : RegEx → Str → Prop where
  | lit (c : Char) : Matches (.lit c) [c]
  | space (c : Char) (h : isSpaceChar c = true) : Matches .space [c]
  | word (c : Char) (h : isWordChar c = true) : Matches .word [c]
  | cat {r q : RegEx} {u v : Str} : Matches r u → Matches q v → Matches (.cat r q) (u ++ v)
  | plusOne {r : RegEx} {u : Str} : Matches r u → Matches (.plus r) u
  | plusMore {r : RegEx} {u v : Str} :
      Matches r u → Matches (.plus r) v → Matches (.plus r) (u ++ v)

/-- The property name the property filter extracts from a match, in the words of
the specification: the text after the match up to the next double quote. -/
def propertyName (m : SMatch) : Str :=
  m.suffix.takeWhile (· ≠ '"')

/-! ## Lemmas on the string operations -/

theorem find_eq_some_zero_iff (s needle : Str) :
    find s needle = some 0 ↔ needle <+: s := by
  cases s with
  | nil => simp [find]
  | cons c s =>
    simp only [find]
    split
    · rename_i h
      simpa using List.isPrefixOf_iff_prefix.mp h
    · rename_i h
      have h2 : ¬ needle <+: c :: s := fun hp => h (List.isPrefixOf_iff_prefix.mpr hp)
      simp only [h2, iff_false]
      cases find s needle <;> simp

theorem find_eq_none_iff (s needle : Str) :
    find s needle = none ↔ ¬ needle <:+: s := by
  induction s with
  | nil =>
    simp only [find]
    split
    · rename_i h
      have := List.isPrefixOf_iff_prefix.mp h
      simp_all
    · rename_i h
      have h2 : ¬ needle <+: [] := fun hp => h (List.isPrefixOf_iff_prefix.mpr hp)
      simp_all
  | cons c s ih =>
    simp only [find]
    split
    · rename_i h
      have hp := List.isPrefixOf_iff_prefix.mp h
      simp only [reduceCtorEq, false_iff, not_not]
      exact hp.isInfix
    · rename_i h
      have h2 : ¬ needle <+: c :: s := fun hp => h (List.isPrefixOf_iff_prefix.mpr hp)
      rw [Option.map_eq_none', ih, List.infix_cons_iff]
      simp [h2]

theorem substr0_find_first_of (s : Str) (ch : Char) :
    substr0 s (find_first_of s ch) = s.takeWhile (· ≠ ch) := by
  induction s with
  | nil => simp [find_first_of, substr0]
  | cons c s ih =>
    simp only [find_first_of]
    by_cases h : c = ch
    · simp [h, substr0]
    · simp only [h, if_false]
      cases hf : find_first_of s ch with
      | none =>
        rw [hf] at ih
        simp only [substr0] at ih
        simp only [Option.map_none', substr0, List.takeWhile_cons, ne_eq, h, not_false_eq_true,
          decide_True, if_true, ← ih]
      | some n =>
        rw [hf] at ih
        simp only [substr0] at ih
        simp only [Option.map_some', substr0, List.take_succ_cons, List.takeWhile_cons, ne_eq, h,
          not_false_eq_true, decide_True, if_true, ← ih]

/-! ## The property filter -/

/-- The filter in terms of the extracted property name. -/
theorem libcProp_filter_eq (cache : List Str) (line : Str) (m : SMatch)
    (hm : regex_search kPropertyAccessRegEX line = some m) :
    libcPropFilterContext.filter cache line =
      if "ctl.".toList <+: propertyName m then (true, cache)
      else if propertyName m ∉ cache then (true, cache ++ [propertyName m])
      else (false, cache) := by
  simp only [libcPropFilterContext.filter, hm, substr0_find_first_of,
    find_eq_some_zero_iff, propertyName]

/-- C1: on a line matching the property-denial pattern whose property name `p` does
not start with `ctl.`, the filter returns true exactly when `p` is not in the
cache, `p` is in the cache afterwards (appended when new), and feeding the same
line again returns false and leaves the cache as it is. -/
theorem libcProp_filter_first_only (line : Str) (cache : List Str) (m : SMatch)
    (hm : regex_search kPropertyAccessRegEX line = some m)
    (hctl : ¬ "ctl.".toList <+: propertyName m) :
    ((libcPropFilterContext.filter cache line).1 = true ↔ propertyName m ∉ cache) ∧
    propertyName m ∈ (libcPropFilterContext.filter cache line).2 ∧
    (libcPropFilterContext.filter cache line).2 =
      (if propertyName m ∈ cache then cache else cache ++ [propertyName m]) ∧
    libcPropFilterContext.filter (libcPropFilterContext.filter cache line).2 line =
      (false, (libcPropFilterContext.filter cache line).2) := by
  have h1 := libcProp_filter_eq cache line m hm
  simp only [hctl, if_false] at h1
  by_cases hin : propertyName m ∈ cache
  · simp only [hin, not_true_eq_false, if_false] at h1
    rw [h1, libcProp_filter_eq cache line m hm, if_neg hctl]
    simp [hin]
  · simp only [hin, not_false_eq_true, if_true] at h1
    rw [h1, libcProp_filter_eq _ line m hm, if_neg hctl]
    simp [hin]

/-- Witness for C1: the line of scenario 3, fed twice starting from an empty
cache, matches the first time and not the second. -/
theorem libcProp_filter_first_only_witness :
    (libcPropFilterContext.filter []
      "libc : Access denied finding property \"ro.test.x\"".toList).1 = true ∧
    (libcPropFilterContext.filter
      (libcPropFilterContext.filter []
        "libc : Access denied finding property \"ro.test.x\"".toList).2
      "libc : Access denied finding property \"ro.test.x\"".toList).1 = false :=
  have h := libcProp_filter_first_only
    "libc : Access denied finding property \"ro.test.x\"".toList []
    ⟨[], "ro.test.x\"".toList⟩ (by decide) (by decide)
  ⟨h.1.2 (List.not_mem_nil _), by rw [h.2.2.2]⟩

/-- C2: on a line matching the property-denial pattern whose property name starts
with `ctl.`, the filter returns true for every content of the cache and leaves
the cache unchanged, so every repetition of the line matches again. -/
theorem libcProp_filter_ctl_always (line : Str) (cache : List Str) (m : SMatch)
    (hm : regex_search kPropertyAccessRegEX line = some m)
    (hctl : "ctl.".toList <+: propertyName m) :
    libcPropFilterContext.filter cache line = (true, cache) ∧
    libcPropFilterContext.filter (libcPropFilterContext.filter cache line).2 line =
      (true, cache) := by
  have h1 := libcProp_filter_eq cache line m hm
  simp only [hctl, if_true] at h1
  rw [h1]
  exact ⟨rfl, h1⟩

/-- Witness for C2: the `ctl.start` line of scenario 3 matches twice in a row, from
a cache that already holds the name. -/
theorem libcProp_filter_ctl_always_witness :
    libcPropFilterContext.filter ["ctl.start".toList]
      "libc : Access denied finding property \"ctl.start\"".toList
      = (true, ["ctl.start".toList]) ∧
    libcPropFilterContext.filter
      (libcPropFilterContext.filter ["ctl.start".toList]
        "libc : Access denied finding property \"ctl.start\"".toList).2
      "libc : Access denied finding property \"ctl.start\"".toList
      = (true, ["ctl.start".toList]) :=
  libcProp_filter_ctl_always
    "libc : Access denied finding property \"ctl.start\"".toList ["ctl.start".toList]
    ⟨[], "ctl.start\"".toList⟩ (by decide) (by decide)

/-! ## The SELinux denial filter -/

/-- C3: on every line that contains `untrusted_app` the SELinux filter returns
false and the correlation buffer is left as it was, whatever else the line
holds. -/
theorem avc_filter_rejects_untrusted_app
    (parseOneAvcContext : Str → AvcContexts → AvcContexts)
    (_ctx : Option AvcContexts) (line : Str)
    (h : "untrusted_app".toList <:+: line) :
    AvcFilterContext.filter parseOneAvcContext _ctx line = (false, _ctx) := by
  have hf : find line "untrusted_app".toList ≠ none := by
    rw [Ne, find_eq_none_iff]
    exact not_not.mpr h
  have hb : (find line "untrusted_app".toList == none) = false := by
    cases hx : find line "untrusted_app".toList with
    | none => exact absurd hx hf
    | some n => rfl
  simp only [AvcFilterContext.filter, hb, Bool.and_false]

/-- Witness for C3: a line of valid denial shape (the pattern is found in it) that
mentions `untrusted_app` is rejected, and the buffer stays empty. -/
theorem avc_filter_rejects_untrusted_app_witness :
    (regex_search kAvcMessageRegEX
      "avc: denied \x7b read \x7d for scontext=u:r:untrusted_app:s0 tclass=file".toList).isSome
      = true ∧
    AvcFilterContext.filter (fun l c => c ++ [⟨l, [], [], []⟩]) (some [])
      "avc: denied \x7b read \x7d for scontext=u:r:untrusted_app:s0 tclass=file".toList
      = (false, some []) :=
  ⟨by decide,
   avc_filter_rejects_untrusted_app _ (some [])
    "avc: denied \x7b read \x7d for scontext=u:r:untrusted_app:s0 tclass=file".toList
    ⟨"avc: denied \x7b read \x7d for scontext=u:r:".toList, ":s0 tclass=file".toList, by decide⟩⟩

/-! ## Correctness of the matcher with respect to the words of a pattern -/

theorem RegEx.Matches.ne_nil {r : RegEx} {u : Str} (h : RegEx.Matches r u) : u ≠ [] := by
  induction h with
  | lit c => simp
  | space c h => simp
  | word c h => simp
  | cat _ _ ih1 _ => simp [ih1]
  | plusOne _ ih => exact ih
  | plusMore _ _ ih1 _ => simp [ih1]

theorem plusAux_mono (step : Str → List Str) (x : Str) :
    ∀ (n m : Nat) (s : Str), n ≤ m → x ∈ plusAux step n s → x ∈ plusAux step m s := by
  intro n
  induction n with
  | zero => intro m s _ h; simp [plusAux] at h
  | succ n ih =>
    intro m s hnm h
    cases m with
    | zero => omega
    | succ m =>
      simp only [plusAux, List.mem_flatMap, List.mem_append, List.mem_singleton] at h ⊢
      obtain ⟨t, ht, hx⟩ := h
      refine ⟨t, ht, ?_⟩
      rcases hx with hx | hx
      · exact Or.inl (ih m t (by omega) hx)
      · exact Or.inr hx

/-- Every way of reading a word of `r` at the start of the input is among the
results of the matcher. -/
theorem RegEx.run_complete {r : RegEx} {u : Str} (h : RegEx.Matches r u) :
    ∀ rest : Str, rest ∈ r.run (u ++ rest) := by
  induction h with
  | lit c => intro rest; simp [RegEx.run]
  | space c h => intro rest; simp [RegEx.run, h]
  | word c h => intro rest; simp [RegEx.run, h]
  | @cat r q u v _ _ ih1 ih2 =>
    intro rest
    simp only [RegEx.run, List.mem_flatMap]
    exact ⟨v ++ rest, by simpa using ih1 (v ++ rest), ih2 rest⟩
  | @plusOne r u hu ih =>
    intro rest
    simp only [RegEx.run]
    obtain ⟨c, u, rfl⟩ := List.exists_cons_of_ne_nil hu.ne_nil
    simp only [List.cons_append, List.length_cons, plusAux, List.mem_flatMap, List.mem_append,
      List.mem_singleton]
    exact ⟨rest, by simpa using ih rest, Or.inr rfl⟩
  | @plusMore r u v hu _ ih1 ih2 =>
    intro rest
    simp only [RegEx.run] at ih2 ⊢
    obtain ⟨c, u, rfl⟩ := List.exists_cons_of_ne_nil hu.ne_nil
    simp only [List.cons_append, List.length_cons, plusAux, List.mem_flatMap, List.mem_append,
      List.mem_singleton, List.append_assoc]
    refine ⟨v ++ rest, by simpa using ih1 (v ++ rest), Or.inl ?_⟩
    exact plusAux_mono _ _ _ _ _ (by simp) (ih2 rest)

/-- A word of the pattern anywhere in the line makes `regex_search` succeed. -/
theorem regex_search_isSome_of_matches (r : RegEx) (w : Str) (h : RegEx.Matches r w) :
    ∀ pre post : Str, (regex_search r (pre ++ (w ++ post))).isSome = true := by
  have hrun : ∀ post, ∃ x xs, r.run (w ++ post) = x :: xs := by
    intro post
    have := RegEx.run_complete h post
    cases hr : r.run (w ++ post) with
    | nil => rw [hr] at this; simp at this
    | cons x xs => exact ⟨x, xs, rfl⟩
  intro pre post
  obtain ⟨x, xs, hx⟩ := hrun post
  induction pre with
  | nil =>
    simp only [List.nil_append]
    cases hw : w ++ post with
    | nil => rw [hw] at hx; simp [regex_search, hx]
    | cons c t => rw [hw] at hx; simp [regex_search, hx]
  | cons c pre ih =>
    simp only [List.cons_append, regex_search]
    split
    · rfl
    · simpa using ih

theorem plusAux_sound (r : RegEx)
    (ih : ∀ s t : Str, t ∈ r.run s → ∃ u, RegEx.Matches r u ∧ s = u ++ t) :
    ∀ (n : Nat) (s t : Str), t ∈ plusAux r.run n s →
      ∃ u, RegEx.Matches (.plus r) u ∧ s = u ++ t := by
  intro n
  induction n with
  | zero => intro s t h; simp [plusAux] at h
  | succ n ihn =>
    intro s t h
    simp only [plusAux, List.mem_flatMap, List.mem_append, List.mem_singleton] at h
    obtain ⟨t1, ht1, h⟩ := h
    obtain ⟨u1, hu1, rfl⟩ := ih s t1 ht1
    rcases h with h | rfl
    · obtain ⟨u2, hu2, rfl⟩ := ihn t1 t h
      exact ⟨u1 ++ u2, RegEx.Matches.plusMore hu1 hu2, by simp⟩
    · exact ⟨u1, RegEx.Matches.plusOne hu1, rfl⟩

/-- Every result of the matcher is what is left of the input after a word of the
pattern. -/
theorem RegEx.run_sound (r : RegEx) :
    ∀ s t : Str, t ∈ r.run s → ∃ u, RegEx.Matches r u ∧ s = u ++ t := by
  induction r with
  | lit c =>
    intro s t h
    cases s with
    | nil => simp [RegEx.run] at h
    | cons x s =>
      by_cases hx : x = c
      · simp only [RegEx.run, hx, if_true, List.mem_singleton] at h
        subst h; subst hx
        exact ⟨[x], RegEx.Matches.lit x, rfl⟩
      · simp [RegEx.run, hx] at h
  | space =>
    intro s t h
    cases s with
    | nil => simp [RegEx.run] at h
    | cons x s =>
      by_cases hx : isSpaceChar x = true
      · simp only [RegEx.run, hx, if_true, List.mem_singleton] at h
        subst h
        exact ⟨[x], RegEx.Matches.space x hx, rfl⟩
      · simp [RegEx.run, hx] at h
  | word =>
    intro s t h
    cases s with
    | nil => simp [RegEx.run] at h
    | cons x s =>
      by_cases hx : isWordChar x = true
      · simp only [RegEx.run, hx, if_true, List.mem_singleton] at h
        subst h
        exact ⟨[x], RegEx.Matches.word x hx, rfl⟩
      · simp [RegEx.run, hx] at h
  | cat r q ihr ihq =>
    intro s t h
    simp only [RegEx.run, List.mem_flatMap] at h
    obtain ⟨t1, ht1, h⟩ := h
    obtain ⟨u1, hu1, rfl⟩ := ihr s t1 ht1
    obtain ⟨u2, hu2, rfl⟩ := ihq t1 t h
    exact ⟨u1 ++ u2, RegEx.Matches.cat hu1 hu2, by simp⟩
  | plus r ihr =>
    intro s t h
    exact plusAux_sound r ihr s.length s t h

/-- A successful search splits the line into the text before the match, a word of
the pattern, and the suffix. -/
theorem regex_search_sound (r : RegEx) :
    ∀ (s : Str) (m : SMatch), regex_search r s = some m →
      ∃ u, RegEx.Matches r u ∧ s = m.pre ++ (u ++ m.suffix) := by
  intro s
  induction s with
  | nil =>
    intro m h
    simp only [regex_search] at h
    cases hr : r.run [] with
    | nil => rw [hr] at h; simp at h
    | cons x xs =>
      rw [hr] at h
      simp only [Option.some.injEq] at h
      subst h
      obtain ⟨u, hu, e⟩ := RegEx.run_sound r [] x (by rw [hr]; simp)
      exact ⟨u, hu, by simpa using e⟩
  | cons c s ih =>
    intro m h
    simp only [regex_search] at h
    cases hr : r.run (c :: s) with
    | nil =>
      rw [hr] at h
      simp only [Option.map_eq_some'] at h
      obtain ⟨m', hm', rfl⟩ := h
      obtain ⟨u, hu, e⟩ := ih m' hm'
      exact ⟨u, hu, by simp [e]⟩
    | cons x xs =>
      rw [hr] at h
      simp only [Option.some.injEq] at h
      subst h
      obtain ⟨u, hu, e⟩ := RegEx.run_sound r (c :: s) x (by rw [hr]; simp)
      exact ⟨u, hu, by simpa using e⟩

theorem RegEx.Matches.foldl_lit {r : RegEx} {u : Str} (h : RegEx.Matches r u) (cs : Str) :
    RegEx.Matches ((cs.map RegEx.lit).foldl RegEx.cat r) (u ++ cs) := by
  induction cs generalizing r u with
  | nil => simpa using h
  | cons c cs ih =>
    have := ih (RegEx.Matches.cat h (RegEx.Matches.lit c))
    simpa using this

theorem RegEx.Matches.str (c : Char) (cs : Str) : RegEx.Matches (RegEx.str c cs) (c :: cs) := by
  have := RegEx.Matches.foldl_lit (RegEx.Matches.lit c) cs
  simpa [RegEx.str, RegEx.seq] using this

theorem RegEx.Matches.plus_word (p : Str) (hne : p ≠ []) (hw : ∀ c ∈ p, isWordChar c = true) :
    RegEx.Matches (.plus .word) p := by
  induction p with
  | nil => exact absurd rfl hne
  | cons c p ih =>
    have hc : RegEx.Matches .word [c] := RegEx.Matches.word c (hw c (by simp))
    cases p with
    | nil => exact RegEx.Matches.plusOne hc
    | cons d p =>
      have := RegEx.Matches.plusMore hc (ih (by simp) (fun x hx => hw x (by simp [hx])))
      simpa using this

/-- The text of a non-empty list of permissions, each a word preceded by one
whitespace character, is matched by `(\s\w+)+`. -/
theorem RegEx.Matches.permissions (perms : List (Char × Str)) (hne : perms ≠ [])
    (hw : ∀ sp ∈ perms, isSpaceChar sp.1 = true ∧ sp.2 ≠ [] ∧ ∀ c ∈ sp.2, isWordChar c = true) :
    RegEx.Matches (.plus (.cat .space (.plus .word))) (perms.flatMap (fun sp => sp.1 :: sp.2)) := by
  induction perms with
  | nil => exact absurd rfl hne
  | cons p ps ih =>
    have hp : RegEx.Matches (.cat .space (.plus .word)) ([p.1] ++ p.2) :=
      RegEx.Matches.cat (RegEx.Matches.space p.1 (hw p (by simp)).1)
        (RegEx.Matches.plus_word p.2 (hw p (by simp)).2.1 (hw p (by simp)).2.2)
    cases ps with
    | nil => simpa using RegEx.Matches.plusOne hp
    | cons q qs =>
      have := RegEx.Matches.plusMore hp (ih (by simp) (fun x hx => hw x (by simp [hx])))
      simpa using this

/-- The denial pattern matches the text `avc: denied { p1 ... pn } for `. -/
theorem kAvcMessageRegEX_matches (perms : List (Char × Str)) (hne : perms ≠ [])
    (hw : ∀ sp ∈ perms, isSpaceChar sp.1 = true ∧ sp.2 ≠ [] ∧ ∀ c ∈ sp.2, isWordChar c = true) :
    RegEx.Matches kAvcMessageRegEX
      ("avc: denied \x7b".toList ++ perms.flatMap (fun sp => sp.1 :: sp.2)
        ++ " \x7d for ".toList) := by
  have sp : RegEx.Matches .space [' '] := RegEx.Matches.space ' ' (by decide)
  have sps : RegEx.Matches (.plus .space) [' '] := RegEx.Matches.plusOne sp
  have h :=
    (((((((((((RegEx.Matches.str 'a' "vc:".toList).cat sps).cat
      (RegEx.Matches.str 'd' "enied".toList)).cat sps).cat (RegEx.Matches.lit '{')).cat
      (RegEx.Matches.permissions perms hne hw)).cat sp).cat (RegEx.Matches.lit '}')).cat sp).cat
      (RegEx.Matches.str 'f' "or".toList)).cat sp)
  simpa [kAvcMessageRegEX, RegEx.seq] using h

/-- C4: a line that contains `avc: denied { p1 ... pn } for ` with at least one
permission, each a non-empty word preceded by one whitespace character (the
space of the template, or another one), and that does not contain
`untrusted_app`, makes the SELinux filter return true; an attached buffer
becomes the result of one call of `parseOneAvcContext` on the line. -/
theorem avc_filter_accepts_denial
    (parseOneAvcContext : Str → AvcContexts → AvcContexts)
    (_ctx : Option AvcContexts) (pre post : Str) (perms : List (Char × Str))
    (hne : perms ≠ [])
    (hw : ∀ sp ∈ perms, isSpaceChar sp.1 = true ∧ sp.2 ≠ [] ∧ ∀ c ∈ sp.2, isWordChar c = true)
    (hun : ¬ "untrusted_app".toList <:+:
      pre ++ ("avc: denied \x7b".toList ++ perms.flatMap (fun sp => sp.1 :: sp.2)
        ++ " \x7d for ".toList ++ post)) :
    AvcFilterContext.filter parseOneAvcContext _ctx
      (pre ++ ("avc: denied \x7b".toList ++ perms.flatMap (fun sp => sp.1 :: sp.2)
        ++ " \x7d for ".toList ++ post))
      = (true, _ctx.map (parseOneAvcContext
          (pre ++ ("avc: denied \x7b".toList ++ perms.flatMap (fun sp => sp.1 :: sp.2)
            ++ " \x7d for ".toList ++ post)))) := by
  have hs := regex_search_isSome_of_matches _ _ (kAvcMessageRegEX_matches perms hne hw) pre post
  have hf := (find_eq_none_iff _ _).mpr hun
  cases _ctx with
  | none => simp only [AvcFilterContext.filter, hs, hf, beq_self_eq_true, Bool.and_self,
      Option.map_none']
  | some c => simp only [AvcFilterContext.filter, hs, hf, beq_self_eq_true, Bool.and_self,
      Option.map_some']

/-- Witness for C4: the line of scenario 1 is accepted, and a buffer attached to the
filter receives one parse of the line. -/
theorem avc_filter_accepts_denial_witness :
    AvcFilterContext.filter (fun l c => c ++ [⟨l, [], [], []⟩]) (some [])
      ("avc: denied \x7b read write \x7d for ".toList ++
        "comm=\"foo\" scontext=u:r:a:s0 tcontext=u:r:b:s0 tclass=file".toList)
      = (true, some [⟨"avc: denied \x7b read write \x7d for ".toList ++
          "comm=\"foo\" scontext=u:r:a:s0 tcontext=u:r:b:s0 tclass=file".toList, [], [], []⟩]) :=
  avc_filter_accepts_denial (fun l c => c ++ [⟨l, [], [], []⟩]) (some []) []
    "comm=\"foo\" scontext=u:r:a:s0 tcontext=u:r:b:s0 tclass=file".toList
    [(' ', "read".toList), (' ', "write".toList)] (by decide) (by decide)
    ((find_eq_none_iff _ _).mp (by decide))

/-! ## Lines that match no pattern -/

theorem filter_false_of_no_match (parseOneAvcContext : Str → AvcContexts → AvcContexts)
    (f : LogFilterContext) (line : Str) (h : regex_search f.pattern line = none)
    (st : FilterState) : f.filter parseOneAvcContext st line = (false, st) := by
  cases f with
  | AvcFilterContext =>
    simp only [LogFilterContext.pattern] at h
    simp [LogFilterContext.filter, AvcFilterContext.filter, h]
  | libcPropFilterContext =>
    simp only [LogFilterContext.pattern] at h
    simp [LogFilterContext.filter, libcPropFilterContext.filter, h]

/-- The entry at position `i` after the pass over the filters, and the world
after the turn of that entry, in terms of the state the earlier entries leave. -/
theorem runFilters_getElem (BUF_SIZE : Int)
    (parseOneAvcContext : Str → AvcContexts → AvcContexts) (line : Str) :
    ∀ (fs : List (LogFilterContext × OutputContext)) (w : World) (st : FilterState)
      (i : Nat) (f : LogFilterContext) (o : OutputContext), fs[i]? = some (f, o) →
      (LoggerContext.runFilters BUF_SIZE parseOneAvcContext line fs w st).1[i]? =
        some (f,
          if (f.filter parseOneAvcContext
                (LoggerContext.runFilters BUF_SIZE parseOneAvcContext line (fs.take i) w st).2.2
                line).1
          then (o.writeToOutput BUF_SIZE
                (LoggerContext.runFilters BUF_SIZE parseOneAvcContext line (fs.take i) w st).2.1
                line).2
          else o) ∧
      (LoggerContext.runFilters BUF_SIZE parseOneAvcContext line (fs.take (i + 1)) w st).2.1 =
        (if (f.filter parseOneAvcContext
                (LoggerContext.runFilters BUF_SIZE parseOneAvcContext line (fs.take i) w st).2.2
                line).1
          then (o.writeToOutput BUF_SIZE
                (LoggerContext.runFilters BUF_SIZE parseOneAvcContext line (fs.take i) w st).2.1
                line).1
          else (LoggerContext.runFilters BUF_SIZE parseOneAvcContext line (fs.take i) w st).2.1)
      := by
  intro fs
  induction fs with
  | nil => intro w st i f o h; simp at h
  | cons a fs ih =>
    intro w st i f o h
    obtain ⟨g, p⟩ := a
    cases i with
    | zero =>
      simp only [List.getElem?_cons_zero, Option.some.injEq, Prod.mk.injEq] at h
      obtain ⟨rfl, rfl⟩ := h
      simp only [LoggerContext.runFilters, List.getElem?_cons_zero, List.take_zero, zero_add,
        List.take_succ_cons]
      constructor
      · split <;> rfl
      · split <;> rfl
    | succ i =>
      simp only [List.getElem?_cons_succ] at h
      simp only [LoggerContext.runFilters, List.getElem?_cons_succ, List.take_succ_cons]
      exact ih _ _ i f o h

/-- C5: for an attached filter `f` with output `o` at position `i` of a logger
context: (1) on a line in which `f`'s pattern is not found, `f` returns false
in every state and changes nothing; (2) in the per-line step the output of `f`
and the world after `f`'s turn are those of `writeToOutput(line)` if `f`
returned true and are untouched otherwise; (3) so on a line in which the pattern
is not found the output of `f` is as before and `f`'s turn leaves the world as
it found it. -/
theorem filter_output_written_iff_matched (BUF_SIZE : Int)
    (parseOneAvcContext : Str → AvcContexts → AvcContexts)
    (t : LoggerContext) (w : World) (st : FilterState) (line : Str)
    (i : Nat) (f : LogFilterContext) (o : OutputContext)
    (hi : t.filters[i]? = some (f, o)) :
    (regex_search f.pattern line = none →
      ∀ s : FilterState, f.filter parseOneAvcContext s line = (false, s)) ∧
    ((t.processLine BUF_SIZE parseOneAvcContext w st line).1.filters[i]? =
        some (f,
          if (f.filter parseOneAvcContext
                (LoggerContext.runFilters BUF_SIZE parseOneAvcContext line
                  (t.filters.take i) w st).2.2 line).1
          then (o.writeToOutput BUF_SIZE
                (LoggerContext.runFilters BUF_SIZE parseOneAvcContext line
                  (t.filters.take i) w st).2.1 line).2
          else o) ∧
      (LoggerContext.runFilters BUF_SIZE parseOneAvcContext line
          (t.filters.take (i + 1)) w st).2.1 =
        (if (f.filter parseOneAvcContext
                (LoggerContext.runFilters BUF_SIZE parseOneAvcContext line
                  (t.filters.take i) w st).2.2 line).1
          then (o.writeToOutput BUF_SIZE
                (LoggerContext.runFilters BUF_SIZE parseOneAvcContext line
                  (t.filters.take i) w st).2.1 line).1
          else (LoggerContext.runFilters BUF_SIZE parseOneAvcContext line
                  (t.filters.take i) w st).2.1)) ∧
    (regex_search f.pattern line = none →
      (t.processLine BUF_SIZE parseOneAvcContext w st line).1.filters[i]? = some (f, o) ∧
      (LoggerContext.runFilters BUF_SIZE parseOneAvcContext line
          (t.filters.take (i + 1)) w st).2.1 =
        (LoggerContext.runFilters BUF_SIZE parseOneAvcContext line
          (t.filters.take i) w st).2.1) := by
  have h := runFilters_getElem BUF_SIZE parseOneAvcContext line t.filters w st i f o hi
  refine ⟨fun hno s => filter_false_of_no_match _ f line hno s, ?_, ?_⟩
  · exact ⟨by simpa [LoggerContext.processLine] using h.1, h.2⟩
  · intro hno
    have hf := filter_false_of_no_match parseOneAvcContext f line hno
    rw [hf] at h
    exact ⟨by simpa [LoggerContext.processLine] using h.1, by simpa using h.2⟩

/-- Witness for C5: the logcat context with the property filter attached, given a
line that is no property denial: the filter's output is left as it was. -/
theorem filter_output_written_iff_matched_witness :
    (LoggerContext.processLine 4096 (fun _ c => c) LoggerContext.sample World.sample
        ⟨none, []⟩ "init: starting service".toList).1.filters[0]?
      = some (LogFilterContext.libcPropFilterContext,
          { OutputContext.newFilter "/log/boot".toList "libc_props.logcat".toList true with
            fd := 4 }) :=
  ((filter_output_written_iff_matched 4096 (fun _ c => c) LoggerContext.sample World.sample
      ⟨none, []⟩ "init: starting service".toList 0 LogFilterContext.libcPropFilterContext
      { OutputContext.newFilter "/log/boot".toList "libc_props.logcat".toList true with fd := 4 }
      rfl).2.2 (by decide)).1

/-! ## Writes through a descriptor -/

theorem pwrite_pwrite (c : Str) (off : Nat) (a b : Str) :
    pwrite (pwrite c off a) (off + a.length) b = pwrite c off (a ++ b) := by
  have hP : (c.take off ++ List.replicate (off - c.length) '\x00').length = off := by
    simp only [List.length_append, List.length_take, List.length_replicate]
    omega
  generalize hPdef : c.take off ++ List.replicate (off - c.length) '\x00' = P at hP
  have e1 : pwrite c off a = (P ++ a) ++ c.drop (off + a.length) := by
    simp only [pwrite, hPdef]
  have e2 : pwrite c off (a ++ b) = (P ++ a) ++ (b ++ c.drop (off + a.length + b.length)) := by
    simp only [pwrite, hPdef, List.length_append, List.append_assoc, Nat.add_assoc]
  have hl : (P ++ a).length = off + a.length := by simp [hP]
  rw [e1, e2]
  unfold pwrite
  rw [List.take_left' hl]
  have h0 : off + a.length - (P ++ a ++ List.drop (off + a.length) c).length = 0 := by
    simp only [List.length_append, hP]
    omega
  rw [h0]
  have hd : List.drop (off + a.length + b.length) (P ++ a ++ List.drop (off + a.length) c)
      = List.drop (off + a.length + b.length) c := by
    rw [← hl, List.drop_append, List.drop_drop, hl]
  rw [hd]
  simp

theorem pwrite_nil (c : Str) (off : Nat) (h : off ≤ c.length) : pwrite c off [] = c := by
  simp [pwrite, Nat.sub_eq_zero_of_le h]

theorem World.fdGet_write (w : World) (x : Int) (d : Str) (fd : Int) :
    (w.write x d).1.fdGet fd =
      if fd = x then (w.fdGet x).map (fun f => ⟨f.ino, f.offset + d.length⟩)
      else w.fdGet fd := by
  unfold World.write
  cases hx : w.fdGet x with
  | none =>
    by_cases h : fd = x
    · simp [h, hx]
    · simp [h]
  | some f =>
    have hx0 : ¬ x < 0 := by
      intro hlt
      simp [World.fdGet, hlt] at hx
    by_cases h : fd = x
    · subst h
      simp [World.fdGet, hx0]
    · simp only [h, if_false]
      by_cases hfd : fd < 0
      · simp [World.fdGet, hfd]
      · have : fd.toNat ≠ x.toNat := by omega
        simp [World.fdGet, hfd, this]

theorem World.data_write (w : World) (x : Int) (d : Str) (i : Nat) :
    (w.write x d).1.data i =
      match w.fdGet x with
      | some f => if i = f.ino then pwrite (w.data f.ino) f.offset d else w.data i
      | none => w.data i := by
  unfold World.write
  cases hx : w.fdGet x <;> simp

theorem World.dir_write (w : World) (x : Int) (d : Str) :
    (w.write x d).1.dir = w.dir := by
  unfold World.write
  cases hx : w.fdGet x <;> simp

theorem frame_refl (ino : Nat) (w : World) : Frame ino w w :=
  ⟨fun _ => rfl, rfl, rfl, fun _ _ => rfl⟩

theorem frame_trans {ino : Nat} {w1 w2 w3 : World} (h12 : Frame ino w1 w2)
    (h23 : Frame ino w2 w3) : Frame ino w1 w3 :=
  ⟨fun fd => (h23.inoOf fd).trans (h12.inoOf fd), h23.dir.trans h12.dir,
   h23.data.trans h12.data,
   fun fd h => (h23.fd fd ((h12.inoOf fd).trans h)).trans (h12.fd fd h)⟩

theorem World.inoOf_write (w : World) (x : Int) (d : Str) (fd : Int) :
    (w.write x d).1.inoOf fd = w.inoOf fd := by
  simp only [World.inoOf, World.fdGet_write]
  by_cases h : fd = x
  · subst h
    cases w.fdGet fd <;> simp
  · simp [h]

theorem World.write_frame (w : World) (x : Int) (d : Str) (ino : Nat)
    (h : w.inoOf x ≠ some ino) : Frame ino w (w.write x d).1 := by
  refine ⟨fun fd => World.inoOf_write w x d fd, World.dir_write w x d, ?_, ?_⟩
  · rw [World.data_write]
    cases hx : w.fdGet x with
    | none => rfl
    | some f =>
      have : ino ≠ f.ino := by
        intro e
        apply h
        simp [World.inoOf, hx, e]
      simp [this]
  · intro fd hfd
    rw [World.fdGet_write]
    have : fd ≠ x := by
      intro e
      subst e
      exact h hfd
    simp [this]

theorem OutputContext.writeToOutput_fd (BUF_SIZE : Int) (o : OutputContext) (w : World)
    (d : Str) : (o.writeToOutput BUF_SIZE w d).2.fd = o.fd := by
  unfold OutputContext.writeToOutput
  simp only
  split <;> rfl

theorem OutputContext.writeToOutput_world (BUF_SIZE : Int) (o : OutputContext) (w : World)
    (d : Str) :
    (o.writeToOutput BUF_SIZE w d).1 = ((w.write o.fd d).1.write o.fd ['\n']).1 := by
  unfold OutputContext.writeToOutput
  simp only
  split <;> rfl

theorem OutputContext.writeToOutput_frame (BUF_SIZE : Int) (o : OutputContext) (w : World)
    (d : Str) (ino : Nat) (h : w.inoOf o.fd ≠ some ino) :
    Frame ino w (o.writeToOutput BUF_SIZE w d).1 := by
  rw [OutputContext.writeToOutput_world]
  have h1 := World.write_frame w o.fd d ino h
  have h2 := World.write_frame (w.write o.fd d).1 o.fd ['\n'] ino (by rw [h1.inoOf]; exact h)
  exact frame_trans h1 h2

theorem OutputContext.writeToOutput_inoOf (BUF_SIZE : Int) (o : OutputContext) (w : World)
    (d : Str) (fd : Int) : (o.writeToOutput BUF_SIZE w d).1.inoOf fd = w.inoOf fd := by
  rw [OutputContext.writeToOutput_world, World.inoOf_write, World.inoOf_write]

theorem OutputContext.writeToOutput_dir (BUF_SIZE : Int) (o : OutputContext) (w : World)
    (d : Str) : (o.writeToOutput BUF_SIZE w d).1.dir = w.dir := by
  rw [OutputContext.writeToOutput_world, World.dir_write, World.dir_write]

/-- One `writeToOutput(d)` through an open descriptor stores `d` and a newline at
the file offset and advances the offset past them. -/
theorem OutputContext.writeToOutput_own (BUF_SIZE : Int) (o : OutputContext) (w : World)
    (d : Str) (ino off : Nat) (h : w.fdGet o.fd = some ⟨ino, off⟩) :
    (o.writeToOutput BUF_SIZE w d).1.fdGet o.fd = some ⟨ino, off + (d ++ ['\n']).length⟩ ∧
    (o.writeToOutput BUF_SIZE w d).1.data ino = pwrite (w.data ino) off (d ++ ['\n']) := by
  rw [OutputContext.writeToOutput_world]
  have h1 : (w.write o.fd d).1.fdGet o.fd = some ⟨ino, off + d.length⟩ := by
    rw [World.fdGet_write]; simp [h]
  have d1 : (w.write o.fd d).1.data ino = pwrite (w.data ino) off d := by
    rw [World.data_write]; simp [h]
  constructor
  · rw [World.fdGet_write]; simp [h1, Nat.add_assoc]
  · rw [World.data_write]; simp only [h1, if_true, d1, pwrite_pwrite]

theorem runFilters_frame (BUF_SIZE : Int)
    (parseOneAvcContext : Str → AvcContexts → AvcContexts) (line : Str) (ino : Nat) :
    ∀ (fs : List (LogFilterContext × OutputContext)) (w : World) (st : FilterState),
      (∀ a ∈ fs, w.inoOf a.2.fd ≠ some ino) →
      Frame ino w (LoggerContext.runFilters BUF_SIZE parseOneAvcContext line fs w st).2.1 ∧
      (LoggerContext.runFilters BUF_SIZE parseOneAvcContext line fs w st).1.map (fun a => a.2.fd)
        = fs.map (fun a => a.2.fd) := by
  intro fs
  induction fs with
  | nil => intro w st _; exact ⟨frame_refl _ _, rfl⟩
  | cons a fs ih =>
    intro w st h
    obtain ⟨f, o⟩ := a
    simp only [LoggerContext.runFilters]
    have ho : w.inoOf o.fd ≠ some ino := h (f, o) (by simp)
    by_cases hr : (f.filter parseOneAvcContext st line).1 = true
    · simp only [hr, if_true]
      have hfr := OutputContext.writeToOutput_frame BUF_SIZE o w line ino ho
      have := ih (o.writeToOutput BUF_SIZE w line).1 (f.filter parseOneAvcContext st line).2
        (fun a ha => by rw [hfr.inoOf]; exact h a (by simp [ha]))
      refine ⟨frame_trans hfr this.1, ?_⟩
      simp [this.2, OutputContext.writeToOutput_fd]
    · simp only [hr]
      have := ih w (f.filter parseOneAvcContext st line).2 (fun a ha => h a (by simp [ha]))
      refine ⟨this.1, ?_⟩
      simp [this.2]

theorem processLine_tailing (BUF_SIZE : Int)
    (parseOneAvcContext : Str → AvcContexts → AvcContexts)
    (t : LoggerContext) (w : World) (st : FilterState) (line : Str)
    (ino off0 : Nat) (c0 out : Str) (h : Tailing t w ino off0 c0 out) :
    Tailing (t.processLine BUF_SIZE parseOneAvcContext w st line).1
      (t.processLine BUF_SIZE parseOneAvcContext w st line).2.1 ino off0 c0
      (out ++ (line ++ ['\n'])) ∧
    (t.processLine BUF_SIZE parseOneAvcContext w st line).2.1.dir = w.dir := by
  obtain ⟨hfd, hdata, hsep⟩ := h
  have hsep2 : ∀ a ∈ t.filters, w.inoOf a.2.fd ≠ some ino :=
    fun a ha => hsep _ (List.mem_map_of_mem _ ha)
  obtain ⟨hfr, hmap⟩ := runFilters_frame BUF_SIZE parseOneAvcContext line ino t.filters w st hsep2
  have hino : w.inoOf t.fd = some ino := by simp [World.inoOf, hfd]
  have hfd2 := (hfr.fd _ hino).trans hfd
  obtain ⟨o1, o2⟩ := OutputContext.writeToOutput_own BUF_SIZE t.toOutputContext _ line _ _ hfd2
  simp only [LoggerContext.processLine]
  refine ⟨⟨?_, ?_, ?_⟩, ?_⟩
  · rw [OutputContext.writeToOutput_fd, o1]
    simp [Nat.add_assoc]
  · rw [o2, hfr.data, hdata, pwrite_pwrite]
  · intro fd hfdm
    rw [hmap] at hfdm
    rw [OutputContext.writeToOutput_inoOf, hfr.inoOf]
    exact hsep fd hfdm
  · rw [OutputContext.writeToOutput_dir, hfr.dir]

theorem processLines_tailing (BUF_SIZE : Int)
    (parseOneAvcContext : Str → AvcContexts → AvcContexts) (ino off0 : Nat) (c0 : Str) :
    ∀ (ls : List Str) (t : LoggerContext) (w : World) (st : FilterState) (out : Str),
      Tailing t w ino off0 c0 out →
      Tailing (LoggerContext.processLines BUF_SIZE parseOneAvcContext ls t w st).1
        (LoggerContext.processLines BUF_SIZE parseOneAvcContext ls t w st).2.1 ino off0 c0
        (out ++ ls.flatMap (fun l => l ++ ['\n'])) ∧
      (LoggerContext.processLines BUF_SIZE parseOneAvcContext ls t w st).2.1.dir = w.dir := by
  intro ls
  induction ls with
  | nil => intro t w st out h; simpa [LoggerContext.processLines] using h
  | cons l ls ih =>
    intro t w st out h
    obtain ⟨h1, d1⟩ := processLine_tailing BUF_SIZE parseOneAvcContext t w st l ino off0 c0 out h
    obtain ⟨h2, d2⟩ := ih _ _ (t.processLine BUF_SIZE parseOneAvcContext w st l).2.2 _ h1
    simp only [LoggerContext.processLines, List.flatMap_cons]
    rw [← List.append_assoc out]
    exact ⟨h2, d2.trans d1⟩

theorem processLine_fd (BUF_SIZE : Int)
    (parseOneAvcContext : Str → AvcContexts → AvcContexts)
    (t : LoggerContext) (w : World) (st : FilterState) (line : Str) :
    (t.processLine BUF_SIZE parseOneAvcContext w st line).1.fd = t.fd := by
  simp [LoggerContext.processLine, OutputContext.writeToOutput_fd]

theorem processLines_fd (BUF_SIZE : Int)
    (parseOneAvcContext : Str → AvcContexts → AvcContexts) :
    ∀ (ls : List Str) (t : LoggerContext) (w : World) (st : FilterState),
      (LoggerContext.processLines BUF_SIZE parseOneAvcContext ls t w st).1.fd = t.fd := by
  intro ls
  induction ls with
  | nil => intro t w st; rfl
  | cons l ls ih =>
    intro t w st
    simp only [LoggerContext.processLines]
    rw [ih, processLine_fd]

theorem readLoop_tailing (BUF_SIZE : Int)
    (parseOneAvcContext : Str → AvcContexts → AvcContexts) (ino off0 : Nat) (c0 : Str) :
    ∀ (runs : Nat) (fp : Str) (t : LoggerContext) (w : World) (st : FilterState) (out : Str),
      Tailing t w ino off0 c0 out →
      Tailing (LoggerContext.readLoop BUF_SIZE parseOneAvcContext runs fp t w st).2.1
        (LoggerContext.readLoop BUF_SIZE parseOneAvcContext runs fp t w st).2.2.1 ino off0 c0
        (out ++ (linesRead runs fp).flatMap (fun l => l ++ ['\n'])) ∧
      (LoggerContext.readLoop BUF_SIZE parseOneAvcContext runs fp t w st).2.2.1.dir = w.dir ∧
      (LoggerContext.readLoop BUF_SIZE parseOneAvcContext runs fp t w st).2.1.fd = t.fd := by
  intro runs
  induction runs with
  | zero => intro fp t w st out h; simpa [LoggerContext.readLoop, linesRead] using h
  | succ n ih =>
    intro fp t w st out h
    simp only [LoggerContext.readLoop, linesRead]
    cases hg : fgets 512 fp with
    | none => exact ih fp t w st out h
    | some br =>
      obtain ⟨buf, rest⟩ := br
      simp only
      obtain ⟨h1, d1⟩ := processLines_tailing BUF_SIZE parseOneAvcContext ino off0 c0
        (getlines (cstr buf)) t w st out h
      obtain ⟨h2, d2, f2⟩ := ih rest _ _
        (LoggerContext.processLines BUF_SIZE parseOneAvcContext (getlines (cstr buf)) t w st).2.2
        _ h1
      rw [List.flatMap_append, ← List.append_assoc out]
      exact ⟨h2, d2.trans d1, f2.trans (processLines_fd _ _ _ _ _ _)⟩

/-- C6: in the read loop of a logger context whose own output is open and shares
its file with no filter output, for every source, every number of rounds and
every list of attached filters in every state, what is written to the own
output (positioned within its file) is the lines read, each once, unmodified and newline-terminated, in the
order read: the file holds them from the starting offset on and the offset has
advanced past them.  The result is that of the same loop without any filter. -/
theorem own_output_receives_every_line (BUF_SIZE : Int)
    (parseOneAvcContext : Str → AvcContexts → AvcContexts)
    (runs : Nat) (fp : Str) (t : LoggerContext) (w : World) (st : FilterState)
    (own : OpenFile)
    (hown : w.fdGet t.fd = some own)
    (hoff : own.offset ≤ (w.data own.ino).length)
    (hsep : ∀ a ∈ t.filters, w.inoOf a.2.fd ≠ some own.ino) :
    (LoggerContext.readLoop BUF_SIZE parseOneAvcContext runs fp t w st).2.2.1.data own.ino
      = pwrite (w.data own.ino) own.offset ((linesRead runs fp).flatMap (fun l => l ++ ['\n'])) ∧
    (LoggerContext.readLoop BUF_SIZE parseOneAvcContext runs fp t w st).2.2.1.fdGet t.fd
      = some ⟨own.ino,
          own.offset + ((linesRead runs fp).flatMap (fun l => l ++ ['\n'])).length⟩ ∧
    (LoggerContext.readLoop BUF_SIZE parseOneAvcContext runs fp t w st).2.2.1.dir = w.dir ∧
    ∀ st2 : FilterState,
      (LoggerContext.readLoop BUF_SIZE parseOneAvcContext runs fp t w st).2.2.1.data own.ino
        = (LoggerContext.readLoop BUF_SIZE parseOneAvcContext runs fp
            { t with filters := [] } w st2).2.2.1.data own.ino := by
  have key : ∀ (t : LoggerContext) (st : FilterState), w.fdGet t.fd = some own →
      (∀ a ∈ t.filters, w.inoOf a.2.fd ≠ some own.ino) →
      (LoggerContext.readLoop BUF_SIZE parseOneAvcContext runs fp t w st).2.2.1.data own.ino
        = pwrite (w.data own.ino) own.offset
            ((linesRead runs fp).flatMap (fun l => l ++ ['\n'])) ∧
      (LoggerContext.readLoop BUF_SIZE parseOneAvcContext runs fp t w st).2.2.1.fdGet t.fd
        = some ⟨own.ino,
            own.offset + ((linesRead runs fp).flatMap (fun l => l ++ ['\n'])).length⟩ ∧
      (LoggerContext.readLoop BUF_SIZE parseOneAvcContext runs fp t w st).2.2.1.dir = w.dir := by
    intro t st hown hsep
    have h0 : Tailing t w own.ino own.offset (w.data own.ino) [] := by
      refine ⟨by simpa using hown, ?_, ?_⟩
      · rw [pwrite_nil _ _ hoff]
      · intro fd hfd
        obtain ⟨a, ha, rfl⟩ := List.mem_map.mp hfd
        exact hsep a ha
    obtain ⟨⟨hfd, hdata, _⟩, hdir, hfdeq⟩ :=
      readLoop_tailing BUF_SIZE parseOneAvcContext own.ino own.offset (w.data own.ino)
        runs fp t w st [] h0
    rw [hfdeq] at hfd
    exact ⟨by simpa using hdata, by simpa using hfd, hdir⟩
  obtain ⟨k1, k2, k3⟩ := key t st hown hsep
  refine ⟨k1, k2, k3, fun st2 => ?_⟩
  rw [k1, (key { t with filters := [] } st2 hown (by simp)).1]
/-- Witness for C6: the logcat context with the property filter attached reads two
lines, one of them a property denial the filter accepts; its own file holds
both lines. -/
theorem own_output_receives_every_line_witness :
    (LoggerContext.readLoop 4096 (fun _ c => c) 3
      "boot\nlibc : Access denied finding property \"ro.x\"\n".toList
      LoggerContext.sample World.sample ⟨none, []⟩).2.2.1.data 0
      = "boot\nlibc : Access denied finding property \"ro.x\"\n".toList :=
  (own_output_receives_every_line 4096 (fun _ c => c) 3
      "boot\nlibc : Access denied finding property \"ro.x\"\n".toList
      LoggerContext.sample World.sample ⟨none, []⟩ ⟨0, 0⟩ (by decide) (by decide)
      (by decide)).1.trans (by decide)

/-! ## The life of an output -/

theorem OutputContext.writeToOutput_kFilePath (BUF_SIZE : Int) (o : OutputContext) (w : World)
    (d : Str) : (o.writeToOutput BUF_SIZE w d).2.kFilePath = o.kFilePath := by
  unfold OutputContext.writeToOutput
  simp only
  split <;> rfl

/-- Successive writes through an open descriptor store the lines one after the
other from the file offset on. -/
theorem OutputContext.writeAll_own (BUF_SIZE : Int) (ino off0 : Nat) (c0 : Str) :
    ∀ (ls : List Str) (o : OutputContext) (w : World) (out : Str),
      w.fdGet o.fd = some ⟨ino, off0 + out.length⟩ → w.data ino = pwrite c0 off0 out →
      (OutputContext.writeAll BUF_SIZE ls o w).1.fdGet (OutputContext.writeAll BUF_SIZE ls o w).2.fd
        = some ⟨ino, off0 + (out ++ ls.flatMap (fun l => l ++ ['\n'])).length⟩ ∧
      (OutputContext.writeAll BUF_SIZE ls o w).1.data ino
        = pwrite c0 off0 (out ++ ls.flatMap (fun l => l ++ ['\n'])) ∧
      (OutputContext.writeAll BUF_SIZE ls o w).1.dir = w.dir ∧
      (OutputContext.writeAll BUF_SIZE ls o w).2.kFilePath = o.kFilePath := by
  intro ls
  induction ls with
  | nil => intro o w out h1 h2; simpa [OutputContext.writeAll] using ⟨h1, h2⟩
  | cons l ls ih =>
    intro o w out h1 h2
    obtain ⟨a1, a2⟩ := OutputContext.writeToOutput_own BUF_SIZE o w l _ _ h1
    have := ih (o.writeToOutput BUF_SIZE w l).2 (o.writeToOutput BUF_SIZE w l).1
      (out ++ (l ++ ['\n']))
      (by rw [OutputContext.writeToOutput_fd, a1]; simp [Nat.add_assoc])
      (by rw [a2, h2, pwrite_pwrite])
    simp only [OutputContext.writeAll, List.flatMap_cons]
    rw [← List.append_assoc out]
    refine ⟨this.1, this.2.1, ?_, ?_⟩
    · rw [this.2.2.1, OutputContext.writeToOutput_dir]
    · rw [this.2.2.2, OutputContext.writeToOutput_kFilePath]

/-- A successful `openOutput()` leaves the descriptor open at offset 0 on the file
at the path, which holds what the path held before, or nothing if the file is
new. -/
theorem OutputContext.openOutput_ok (o : OutputContext) (w : World)
    (h : (o.openOutput w).2 = true) :
    ∃ ino, (o.openOutput w).1.1.fdGet (o.openOutput w).1.2.fd = some ⟨ino, 0⟩ ∧
      (o.openOutput w).1.1.dir o.kFilePath = some ino ∧
      (o.openOutput w).1.1.data ino = (w.fileAt o.kFilePath).getD [] ∧
      (o.openOutput w).1.2.kFilePath = o.kFilePath := by
  unfold OutputContext.openOutput World.open at h ⊢
  by_cases hr : w.refuses o.kFilePath = true
  · simp [hr] at h
  · simp only [hr] at h ⊢
    cases hl : w.lowestFree with
    | none => simp [hl] at h
    | some fd =>
      have hfd : ¬ ((fd : Int) < 0) := by omega
      cases hd : w.dir o.kFilePath with
      | some ino =>
        refine ⟨ino, ?_, ?_, ?_, ?_⟩
        · simp [World.fdGet]
        · simp [hd]
        · simp [World.fileAt, hd]
        · simp
      | none =>
        refine ⟨w.nextIno, ?_, ?_, ?_, ?_⟩
        · simp [World.fdGet]
        · simp
        · simp [World.fileAt, hd]
        · simp

/-- The file at the path of an output after the destructor, when the descriptor is
open on that file: removed if empty, else unchanged. -/
theorem OutputContext.destroy_fileAt (o : OutputContext) (w : World) (f : OpenFile)
    (h1 : w.fdGet o.fd = some f) (h2 : w.dir o.kFilePath = some f.ino) :
    (o.destroy w).1.fileAt o.kFilePath =
      if w.data f.ino = [] then none else some (w.data f.ino) := by
  have hfd : ¬ o.fd < 0 := by
    intro hlt
    simp [World.fdGet, hlt] at h1
  unfold OutputContext.destroy
  simp only [World.fstat, h1, Option.map_some']
  cases hc : w.data f.ino with
  | nil => simp [World.fileAt, World.close, World.remove, hfd]
  | cons c cs => simp [World.fileAt, World.close, hfd, h2, hc]

/-- C7, as the code has it: a sink that is opened successfully, receives the
writes `ls` and is destroyed leaves at its path the written lines, each
newline-terminated and in write order, followed by whatever the path held
before beyond that length (`open` does not truncate); the file is removed
exactly when that content is empty.  When the path held no file or an empty file
before, no file is left for zero writes and exactly the written lines
otherwise. -/
theorem sink_round_trip (BUF_SIZE : Int) (o : OutputContext) (w w' : World)
    (ls : List Str) (h : o.session BUF_SIZE w ls = some w') :
    w'.fileAt o.kFilePath =
      (if ls.flatMap (fun l => l ++ ['\n']) ++
            ((w.fileAt o.kFilePath).getD []).drop (ls.flatMap (fun l => l ++ ['\n'])).length = []
        then none
        else some (ls.flatMap (fun l => l ++ ['\n']) ++
          ((w.fileAt o.kFilePath).getD []).drop (ls.flatMap (fun l => l ++ ['\n'])).length)) ∧
    ((w.fileAt o.kFilePath).getD [] = [] →
      w'.fileAt o.kFilePath =
        if ls = [] then none else some (ls.flatMap (fun l => l ++ ['\n']))) := by
  unfold OutputContext.session at h
  by_cases hok : (o.openOutput w).2 = true
  · simp only [hok, if_true, Option.some.injEq] at h
    obtain ⟨ino, g1, g2, g3, g4⟩ := OutputContext.openOutput_ok o w hok
    obtain ⟨a1, a2, a3, a4⟩ := OutputContext.writeAll_own BUF_SIZE ino 0
      ((w.fileAt o.kFilePath).getD []) ls (o.openOutput w).1.2 (o.openOutput w).1.1 []
      (by simpa using g1) (by rw [g3]; simp [pwrite])
    have hd := OutputContext.destroy_fileAt _ _ ⟨ino, _⟩ a1 (by rw [a4, g4, a3]; exact g2)
    rw [a4, g4, h] at hd
    simp only [a2, List.nil_append] at hd
    have hp : ∀ (c out : Str), pwrite c 0 out = out ++ c.drop out.length := by
      intro c out; simp [pwrite]
    rw [hp] at hd
    refine ⟨hd, fun hempty => ?_⟩
    rw [hd, hempty]
    cases ls with
    | nil => simp
    | cons l ls => simp
  · simp [hok] at h

/-- Witness for C7: a fresh sink that receives two writes and is destroyed leaves a
file with the two lines. -/
theorem sink_round_trip_witness :
    ((OutputContext.new "/log/boot".toList "dmesg".toList).session 4096 World.empty
        ["one".toList, "two".toList]).map (fun w => w.fileAt "/log/boot/dmesg.txt".toList)
      = some (some "one\ntwo\n".toList) := by
  have hs : ((OutputContext.new "/log/boot".toList "dmesg".toList).session 4096 World.empty
      ["one".toList, "two".toList]).isSome = true := by decide
  obtain ⟨w', h⟩ := Option.isSome_iff_exists.mp hs
  rw [h]
  simp only [Option.map_some', Option.some.injEq]
  exact ((sink_round_trip 4096 _ World.empty w' _ h).2 rfl).trans (by decide)

/-- Counterexample to C7 as stated: the path holds `old!` before the open.  With
zero writes the file is still there afterwards, and with the single write `a`
the file holds `a`, a newline and the rest `d!` of the earlier content. -/
theorem sink_round_trip_stale_file :
    ((OutputContext.new "/log/boot".toList "dmesg".toList).session 4096 World.stale
        []).map (fun w => w.fileAt "/log/boot/dmesg.txt".toList)
      = some (some "old!".toList) ∧
    ((OutputContext.new "/log/boot".toList "dmesg".toList).session 4096 World.stale
        ["a".toList]).map (fun w => w.fileAt "/log/boot/dmesg.txt".toList)
      = some (some "a\nd!".toList) := by
  constructor <;> decide

/-! ## The last block of `main` -/

theorem World.write_invalid (w : World) (d : Str) : w.write (-1) d = (w, -1) := by
  simp [World.write, World.fdGet]

/-- Writes through an output that was never opened leave the world as it is. -/
theorem OutputContext.writeAll_unopened (BUF_SIZE : Int) :
    ∀ (ls : List Str) (o : OutputContext) (w : World), o.fd = -1 →
      (OutputContext.writeAll BUF_SIZE ls o w).1 = w ∧
      (OutputContext.writeAll BUF_SIZE ls o w).2.fd = -1 := by
  intro ls
  induction ls with
  | nil => intro o w h; exact ⟨rfl, h⟩
  | cons l ls ih =>
    intro o w h
    have hw : (o.writeToOutput BUF_SIZE w l).1 = w := by
      rw [OutputContext.writeToOutput_world, h, World.write_invalid, World.write_invalid]
    have hf : (o.writeToOutput BUF_SIZE w l).2.fd = -1 := by
      rw [OutputContext.writeToOutput_fd, h]
    have := ih (o.writeToOutput BUF_SIZE w l).2 (o.writeToOutput BUF_SIZE w l).1 hf
    simp only [OutputContext.writeAll]
    exact ⟨this.1.trans hw, this.2⟩

theorem OutputContext.destroy_unopened (o : OutputContext) (w : World) (h : o.fd = -1) :
    (o.destroy w).1 = w := by
  simp [OutputContext.destroy, World.fstat, World.fdGet, World.close, h]

/-- C8, what the code does: the last block of `main` never opens `seGenCtx`, so
for every buffer, every rule text and every world it leaves the world exactly as
it was; the path it names is `<logdir>/sepolicy.gen.txt.txt`.  With one record in
the buffer and a one-line rule list, no file exists at
`/log/boot/sepolicy.gen.txt` nor at `/log/boot/sepolicy.gen.txt.txt` afterwards. -/
theorem sepolicy_gen_not_written :
    (∀ (BUF_SIZE : Int) (writeAllowRules : AvcContext → Str)
        (eraseDuplicates : List Str → List Str) (kLogDir : Str) (kAvcCtx : Option AvcContexts)
        (w : World),
        correlatorPass BUF_SIZE writeAllowRules eraseDuplicates kLogDir kAvcCtx w = w) ∧
    (OutputContext.new "/log/boot".toList "sepolicy.gen.txt".toList).kFilePath
      = "/log/boot/sepolicy.gen.txt.txt".toList ∧
    allowRules (fun e => e.scontext ++ e.tcontext ++ e.tclass) id
      [⟨"a".toList, "b".toList, "file".toList, ["read".toList]⟩] = ["abfile".toList] ∧
    (correlatorPass 4096 (fun e => e.scontext ++ e.tcontext ++ e.tclass) id "/log/boot".toList
      (some [⟨"a".toList, "b".toList, "file".toList, ["read".toList]⟩])
      World.empty).fileAt "/log/boot/sepolicy.gen.txt".toList = none ∧
    (correlatorPass 4096 (fun e => e.scontext ++ e.tcontext ++ e.tclass) id "/log/boot".toList
      (some [⟨"a".toList, "b".toList, "file".toList, ["read".toList]⟩])
      World.empty).fileAt "/log/boot/sepolicy.gen.txt.txt".toList = none := by
  have gen : ∀ (BUF_SIZE : Int) (writeAllowRules : AvcContext → Str)
      (eraseDuplicates : List Str → List Str) (kLogDir : Str) (kAvcCtx : Option AvcContexts)
      (w : World),
      correlatorPass BUF_SIZE writeAllowRules eraseDuplicates kLogDir kAvcCtx w = w := by
    intro BUF_SIZE writeAllowRules eraseDuplicates kLogDir kAvcCtx w
    cases kAvcCtx with
    | none => rfl
    | some ctx =>
      simp only [correlatorPass]
      obtain ⟨h1, h2⟩ := OutputContext.writeAll_unopened BUF_SIZE
        (allowRules writeAllowRules eraseDuplicates ctx)
        (OutputContext.new kLogDir "sepolicy.gen.txt".toList) w rfl
      rw [OutputContext.destroy_unopened _ _ h2, h1]
  refine ⟨gen, by decide, by decide, ?_, ?_⟩
  · rw [gen]; rfl
  · rw [gen]; rfl

/-! ## The audit probe -/

/-- Counterexample to C9 as stated: with `ReadKernelConfig` returning 1, `main`
reaches the start of the threads with the SELinux filter attached to both
logger contexts and with the correlation buffer alive, so that the last block
runs. -/
theorem audit_probe_failure_keeps_filter :
    (mainSetup 2 "/log".toList false 1 ConfigValue.UNSET false false).toOption.map
      (fun s =>
        (decide (LogFilterContext.AvcFilterContext ∈ s.kDmesgCtx.filters.map Prod.fst),
         decide (LogFilterContext.AvcFilterContext ∈ s.kLogcatCtx.filters.map Prod.fst),
         s.kAvcFilter, s.kAvcCtx))
      = some (true, true, some LogFilterContext.AvcFilterContext, some []) := by
  decide

/-- C9, as the code has it: when `ReadKernelConfig` returns a nonzero result, `main`
goes on exactly as if the probe had found `CONFIG_AUDIT=y`: it exits early only
for a wrong argument count, an empty log root or a failing `create_directory`,
and otherwise the SELinux filter and the correlation buffer are kept, the filter
is attached to the logcat context and, when the dmesg thread is started, to the
dmesg context, and the buffer is there for the last block. -/
theorem audit_probe_failure_is_ignored (argc : Nat) (argv1 : Str) (system_log : Bool)
    (rc : Int) (configAudit : ConfigValue) (createDirectoryFails roLogdKernel : Bool)
    (hrc : rc ≠ 0) :
    mainSetup argc argv1 system_log rc configAudit createDirectoryFails roLogdKernel
      = mainSetup argc argv1 system_log 0 ConfigValue.BUILT_IN createDirectoryFails
          roLogdKernel ∧
    ((mainSetup argc argv1 system_log rc configAudit createDirectoryFails roLogdKernel).toOption
        = none ↔ (argc ≠ 2 ∨ argv1 = [] ∨ createDirectoryFails = true)) ∧
    ∀ s : MainSetup,
      mainSetup argc argv1 system_log rc configAudit createDirectoryFails roLogdKernel = .ok s →
      s.kAvcFilter = some LogFilterContext.AvcFilterContext ∧
      s.kAvcCtx = some [] ∧
      LogFilterContext.AvcFilterContext ∈ s.kLogcatCtx.filters.map Prod.fst ∧
      (s.dmesgStarted = true →
        LogFilterContext.AvcFilterContext ∈ s.kDmesgCtx.filters.map Prod.fst) := by
  have hp : ∀ f c, auditProbe rc configAudit f c = (f, c) := by
    intro f c; simp [auditProbe, hrc]
  have hp0 : ∀ (f : Option LogFilterContext) (c : Option AvcContexts),
      auditProbe 0 ConfigValue.BUILT_IN f c = (f, c) := by
    intro f c; simp [auditProbe]
  refine ⟨?_, ?_, ?_⟩
  · simp only [mainSetup, hp, hp0]
  · simp only [mainSetup, hp]
    by_cases h1 : argc = 2 <;> by_cases h2 : argv1 = [] <;>
      cases createDirectoryFails <;> simp [h1, h2, Except.toOption]
  · intro s hs
    simp only [mainSetup, hp] at hs
    by_cases h1 : argc = 2
    · by_cases h2 : argv1 = []
      · simp [h1, h2] at hs
      · cases createDirectoryFails
        · simp only [h1, h2, ne_eq, not_true_eq_false, if_false, Bool.false_eq_true,
            Except.ok.injEq] at hs
          subst hs
          cases roLogdKernel <;>
            simp [LoggerContext.registerLogFilter, LoggerContext.new]
        · simp [h1, h2] at hs
    · simp [h1] at hs

/-- Witness for C9: the probe result 1 with a kernel that does not set
`CONFIG_AUDIT` gives the same set-up as the probe result 0 with `CONFIG_AUDIT=y`. -/
theorem audit_probe_failure_is_ignored_witness :
    mainSetup 2 "/log".toList false 1 ConfigValue.UNSET false false
      = mainSetup 2 "/log".toList false 0 ConfigValue.BUILT_IN false false :=
  (audit_probe_failure_is_ignored 2 "/log".toList false 1 ConfigValue.UNSET false false
    (by decide)).1

/-! ## The merge pass -/

theorem AvcContext.merge_key (e1 e2 : AvcContext) : (e1.merge e2).key = e1.key := by
  unfold AvcContext.merge
  split <;> rfl

theorem AvcContext.mem_merge (e1 e2 : AvcContext) (p : Str) :
    p ∈ (e1.merge e2).operation ↔ p ∈ e1.operation ∨ (e2.key = e1.key ∧ p ∈ e2.operation) := by
  unfold AvcContext.merge
  by_cases h : e1.scontext = e2.scontext ∧ e1.tcontext = e2.tcontext ∧ e1.tclass = e2.tclass
  · have hk : e2.key = e1.key := by
      simp [AvcContext.key, h.1, h.2.1, h.2.2]
    simp only [h, and_self, if_true, List.mem_append, List.mem_filter, hk, true_and]
    constructor
    · rintro (h1 | h1)
      · exact Or.inl h1
      · exact Or.inr h1.1
    · rintro (h1 | h1)
      · exact Or.inl h1
      · by_cases hp : p ∈ e1.operation
        · exact Or.inl hp
        · exact Or.inr ⟨h1, by simpa using hp⟩
  · have hk : ¬ e2.key = e1.key := by
      intro hk
      apply h
      simp only [AvcContext.key, Prod.mk.injEq] at hk
      exact ⟨hk.1.symm, hk.2.1.symm, hk.2.2.symm⟩
    simp [h, hk]

theorem mergeStep_self (i : Nat) (buf : AvcContexts) : mergeStep i buf i = buf := by
  simp [mergeStep]

theorem mergeStep_some (i j : Nat) (buf : AvcContexts) (a b : AvcContext) (hij : i ≠ j)
    (hi : buf[i]? = some a) (hj : buf[j]? = some b) :
    mergeStep i buf j = buf.set i (a.merge b) := by
  simp [mergeStep, hij, hi, hj]

theorem mergeStep_none (i j : Nat) (buf : AvcContexts)
    (h : buf[i]? = none ∨ buf[j]? = none) : mergeStep i buf j = buf := by
  unfold mergeStep
  split
  · rfl
  · rcases h with h | h <;> simp [h]

theorem mergeStep_spec (i : Nat) (buf : AvcContexts) (j : Nat) :
    (mergeStep i buf j).length = buf.length ∧
    (∀ k, k ≠ i → (mergeStep i buf j)[k]? = buf[k]?) ∧
    ∀ e1, buf[i]? = some e1 → ∃ e1', (mergeStep i buf j)[i]? = some e1' ∧ e1'.key = e1.key ∧
      ∀ p, p ∈ e1'.operation ↔ p ∈ e1.operation ∨
        (j ≠ i ∧ ∃ e2, buf[j]? = some e2 ∧ e2.key = e1.key ∧ p ∈ e2.operation) := by
  by_cases hij : i = j
  · subst hij
    rw [mergeStep_self]
    exact ⟨rfl, fun _ _ => rfl, fun e1 h => ⟨e1, h, rfl, fun p => by simp⟩⟩
  · have hji : j ≠ i := fun h => hij h.symm
    cases hj : buf[j]? with
    | none =>
      rw [mergeStep_none i j buf (Or.inr hj)]
      exact ⟨rfl, fun _ _ => rfl, fun e1 h => ⟨e1, h, rfl, fun p => by simp⟩⟩
    | some b =>
      cases hi : buf[i]? with
      | none =>
        rw [mergeStep_none i j buf (Or.inl hi)]
        exact ⟨rfl, fun _ _ => rfl, fun e1 h => by simp at h⟩
      | some a =>
        have hlt : i < buf.length := by
          rcases List.getElem?_eq_some.mp hi with ⟨h, _⟩
          exact h
        rw [mergeStep_some i j buf a b hij hi hj]
        refine ⟨by simp, fun k hk => ?_, fun e1 h => ?_⟩
        · rw [List.getElem?_set_ne (fun h => hk h.symm)]
        · simp only [Option.some.injEq] at h
          subst h
          refine ⟨a.merge b, ?_, AvcContext.merge_key a b, fun p => ?_⟩
          · rw [List.getElem?_set_self hlt]
          · rw [AvcContext.mem_merge]
            simp [hji]

theorem mergeFold_spec (i : Nat) :
    ∀ (js : List Nat) (buf : AvcContexts),
      (js.foldl (mergeStep i) buf).length = buf.length ∧
      (∀ k, k ≠ i → (js.foldl (mergeStep i) buf)[k]? = buf[k]?) ∧
      ∀ e1, buf[i]? = some e1 → ∃ e1', (js.foldl (mergeStep i) buf)[i]? = some e1' ∧
        e1'.key = e1.key ∧
        ∀ p, p ∈ e1'.operation ↔ p ∈ e1.operation ∨
          ∃ j ∈ js, j ≠ i ∧ ∃ e2, buf[j]? = some e2 ∧ e2.key = e1.key ∧ p ∈ e2.operation := by
  intro js
  induction js with
  | nil =>
    intro buf
    exact ⟨rfl, fun _ _ => rfl, fun e1 h => ⟨e1, h, rfl, fun p => by simp⟩⟩
  | cons j js ih =>
    intro buf
    obtain ⟨s1, s2, s3⟩ := mergeStep_spec i buf j
    obtain ⟨r1, r2, r3⟩ := ih (mergeStep i buf j)
    simp only [List.foldl_cons]
    refine ⟨r1.trans s1, fun k hk => (r2 k hk).trans (s2 k hk), fun e1 h => ?_⟩
    obtain ⟨e1', a1, a2, a3⟩ := s3 e1 h
    obtain ⟨e1'', b1, b2, b3⟩ := r3 e1' a1
    refine ⟨e1'', b1, b2.trans a2, fun p => ?_⟩
    rw [b3, a3]
    constructor
    · rintro ((h1 | ⟨hji, e2, h2, h3, h4⟩) | ⟨j', hj', hne, e2, h2, h3, h4⟩)
      · exact Or.inl h1
      · exact Or.inr ⟨j, by simp, hji, e2, h2, h3, h4⟩
      · rw [s2 j' hne] at h2
        exact Or.inr ⟨j', by simp [hj'], hne, e2, h2, h3.trans a2, h4⟩
    · rintro (h1 | ⟨j', hj', hne, e2, h2, h3, h4⟩)
      · exact Or.inl (Or.inl h1)
      · rcases List.mem_cons.mp hj' with rfl | hj'
        · exact Or.inl (Or.inr ⟨hne, e2, h2, h3, h4⟩)
        · exact Or.inr ⟨j', hj', hne, e2, by rw [s2 j' hne]; exact h2, h3.trans a2.symm, h4⟩

theorem mergeRow_spec (buf : AvcContexts) (i : Nat) :
    (mergeRow buf i).length = buf.length ∧
    (∀ k, k ≠ i → (mergeRow buf i)[k]? = buf[k]?) ∧
    ∀ e1, buf[i]? = some e1 → ∃ e1', (mergeRow buf i)[i]? = some e1' ∧ e1'.key = e1.key ∧
      ∀ p, p ∈ e1'.operation ↔ p ∈ e1.operation ∨
        ∃ j, j ≠ i ∧ ∃ e2, buf[j]? = some e2 ∧ e2.key = e1.key ∧ p ∈ e2.operation := by
  obtain ⟨r1, r2, r3⟩ := mergeFold_spec i (List.range buf.length) buf
  refine ⟨r1, r2, fun e1 h => ?_⟩
  obtain ⟨e1', a1, a2, a3⟩ := r3 e1 h
  refine ⟨e1', a1, a2, fun p => ?_⟩
  rw [a3]
  constructor
  · rintro (h1 | ⟨j, _, hne, e2, h2, h3, h4⟩)
    · exact Or.inl h1
    · exact Or.inr ⟨j, hne, e2, h2, h3, h4⟩
  · rintro (h1 | ⟨j, hne, e2, h2, h3, h4⟩)
    · exact Or.inl h1
    · refine Or.inr ⟨j, ?_, hne, e2, h2, h3, h4⟩
      rcases List.getElem?_eq_some.mp h2 with ⟨hlt, _⟩
      exact List.mem_range.mpr hlt

theorem mergeRow_inv (orig b : AvcContexts) (i : Nat) (h : MergeInv orig b) :
    MergeInv orig (mergeRow b i) ∧ MergeDone orig (mergeRow b i) i ∧
    ∀ idx, idx ≠ i → MergeDone orig b idx → MergeDone orig (mergeRow b i) idx := by
  obtain ⟨r1, r2, r3⟩ := mergeRow_spec b i
  obtain ⟨hlen, hinv⟩ := h
  refine ⟨⟨r1.trans hlen, ?_⟩, ?_, ?_⟩
  · intro idx e o he ho
    by_cases hidx : idx = i
    · subst hidx
      have hlt : idx < b.length := by
        rw [hlen]
        exact (List.getElem?_eq_some.mp ho).1
      obtain ⟨e1, he1⟩ : ∃ e1, b[idx]? = some e1 := ⟨b[idx], List.getElem?_eq_getElem hlt⟩
      obtain ⟨e1', a1, a2, a3⟩ := r3 e1 he1
      rw [a1] at he
      simp only [Option.some.injEq] at he
      subst he
      obtain ⟨k1, k2, k3⟩ := hinv idx e1 o he1 ho
      refine ⟨a2.trans k1, fun p hp => (a3 p).mpr (Or.inl (k2 p hp)), fun p hp => ?_⟩
      rcases (a3 p).mp hp with h1 | ⟨j, hne, e2, h2, h3, h4⟩
      · exact k3 p h1
      · have hjlt : j < orig.length := by
          rw [← hlen]
          exact (List.getElem?_eq_some.mp h2).1
        obtain ⟨m1, _, m3⟩ := hinv j e2 orig[j] h2 (List.getElem?_eq_getElem hjlt)
        have := m3 p h4
        rw [← m1, h3, k1] at this
        exact this
    · rw [r2 idx hidx] at he
      exact hinv idx e o he ho
  · intro e he p hp
    have hlt : i < b.length := by
      rw [← r1]
      exact (List.getElem?_eq_some.mp he).1
    obtain ⟨e1, he1⟩ : ∃ e1, b[i]? = some e1 := ⟨b[i], List.getElem?_eq_getElem hlt⟩
    obtain ⟨e1', a1, a2, a3⟩ := r3 e1 he1
    rw [a1] at he
    simp only [Option.some.injEq] at he
    subst he
    obtain ⟨o2, ho2, hk, hp2⟩ := hp
    obtain ⟨j, hj⟩ := List.mem_iff_getElem?.mp ho2
    have hjlt : j < b.length := by
      rw [hlen]
      exact (List.getElem?_eq_some.mp hj).1
    obtain ⟨m1, m2, _⟩ := hinv j b[j] o2 (List.getElem?_eq_getElem hjlt) hj
    by_cases hji : j = i
    · subst hji
      rw [List.getElem?_eq_getElem hjlt] at he1
      simp only [Option.some.injEq] at he1
      subst he1
      exact (a3 p).mpr (Or.inl (m2 p hp2))
    · exact (a3 p).mpr (Or.inr ⟨j, hji, b[j], List.getElem?_eq_getElem hjlt,
        (m1.trans hk).trans a2, m2 p hp2⟩)
  · intro idx hidx hd e he
    rw [r2 idx hidx] at he
    exact hd e he

theorem mergeRows_inv (orig : AvcContexts) :
    ∀ (rows : List Nat) (b : AvcContexts), MergeInv orig b →
      MergeInv orig (rows.foldl mergeRow b) ∧
      ∀ idx, (idx ∈ rows ∨ MergeDone orig b idx) → MergeDone orig (rows.foldl mergeRow b) idx := by
  intro rows
  induction rows with
  | nil =>
    intro b h
    refine ⟨h, fun idx hidx => ?_⟩
    rcases hidx with hidx | hidx
    · simp at hidx
    · exact hidx
  | cons i rows ih =>
    intro b h
    obtain ⟨h1, h2, h3⟩ := mergeRow_inv orig b i h
    obtain ⟨g1, g2⟩ := ih (mergeRow b i) h1
    simp only [List.foldl_cons]
    refine ⟨g1, fun idx hidx => ?_⟩
    by_cases hi : idx = i
    · subst hi
      exact g2 idx (Or.inr h2)
    · rcases hidx with hidx | hidx
      · rcases List.mem_cons.mp hidx with hidx | hidx
        · exact absurd hidx hi
        · exact g2 idx (Or.inl hidx)
      · exact g2 idx (Or.inr (h3 idx hi hidx))

theorem mergeInv_refl (orig : AvcContexts) : MergeInv orig orig := by
  refine ⟨rfl, fun idx e o he ho => ?_⟩
  rw [he] at ho
  simp only [Option.some.injEq] at ho
  subst ho
  exact ⟨rfl, fun p hp => hp, fun p hp => ⟨e, List.mem_iff_getElem?.mpr ⟨idx, he⟩, rfl, hp⟩⟩

/-- Position by position, the merge pass keeps the identity of a record and makes
its permissions those of its whole group in the buffer the pass started from. -/
theorem mergePass_spec (buf : AvcContexts) :
    (mergePass buf).length = buf.length ∧
    ∀ (idx : Nat) (e o : AvcContext), (mergePass buf)[idx]? = some e → buf[idx]? = some o →
      e.key = o.key ∧ ∀ p, p ∈ e.operation ↔ InGroup buf o.key p := by
  obtain ⟨⟨hlen, hinv⟩, hdone⟩ := mergeRows_inv buf (List.range buf.length) buf (mergeInv_refl buf)
  refine ⟨hlen, fun idx e o he ho => ?_⟩
  obtain ⟨k1, _, k3⟩ := hinv idx e o he ho
  refine ⟨k1, fun p => ⟨k3 p, fun hp => ?_⟩⟩
  have hlt : idx < buf.length := (List.getElem?_eq_some.mp ho).1
  have := hdone idx (Or.inl (List.mem_range.mpr hlt)) e he p
  rw [k1] at this
  exact this hp

/-- C10: with `+=` the merge of the specification, after the merge pass of `main`
the buffer has the same records in the same positions with the same subject,
object and class, and the permissions of every record are, as a set, the union
of the original permissions of all records of the buffer with its subject,
object and class.  Hence records with equal subject, object and class in the
results for two orderings of one buffer have the same permissions, and two
same-key records with `read` and `write` both end with `read` and `write`. -/
theorem merge_pass_unions_groups :
    (∀ buf : AvcContexts,
      List.Forall₂
        (fun o e => e.scontext = o.scontext ∧ e.tcontext = o.tcontext ∧ e.tclass = o.tclass ∧
          ∀ p, p ∈ e.operation ↔
            ∃ o2 ∈ buf, o2.scontext = o.scontext ∧ o2.tcontext = o.tcontext ∧
              o2.tclass = o.tclass ∧ p ∈ o2.operation)
        buf (mergePass buf)) ∧
    (∀ buf1 buf2 : AvcContexts, buf1.Perm buf2 →
      ∀ e1 ∈ mergePass buf1, ∀ e2 ∈ mergePass buf2,
        e1.scontext = e2.scontext ∧ e1.tcontext = e2.tcontext ∧ e1.tclass = e2.tclass →
        ∀ p, p ∈ e1.operation ↔ p ∈ e2.operation) ∧
    (∀ s t c : Str,
      mergePass [⟨s, t, c, ["read".toList]⟩, ⟨s, t, c, ["write".toList]⟩]
        = [⟨s, t, c, ["read".toList, "write".toList]⟩,
           ⟨s, t, c, ["write".toList, "read".toList]⟩]) := by
  have keyeq : ∀ a b : AvcContext, a.key = b.key ↔
      a.scontext = b.scontext ∧ a.tcontext = b.tcontext ∧ a.tclass = b.tclass := by
    intro a b; simp [AvcContext.key]
  have hmem : ∀ (buf : AvcContexts), ∀ e ∈ mergePass buf,
      ∀ p, p ∈ e.operation ↔ InGroup buf e.key p := by
    intro buf e he p
    obtain ⟨hlen, hspec⟩ := mergePass_spec buf
    obtain ⟨idx, hidx⟩ := List.mem_iff_getElem?.mp he
    have hlt : idx < buf.length := by
      rw [← hlen]
      exact (List.getElem?_eq_some.mp hidx).1
    obtain ⟨k1, k2⟩ := hspec idx e buf[idx] hidx (List.getElem?_eq_getElem hlt)
    rw [k1]
    exact k2 p
  refine ⟨fun buf => ?_, fun buf1 buf2 hperm e1 he1 e2 he2 hk p => ?_, fun s t c => ?_⟩
  · obtain ⟨hlen, hspec⟩ := mergePass_spec buf
    refine List.forall₂_iff_get.mpr ⟨hlen.symm, fun idx h1 h2 => ?_⟩
    obtain ⟨k1, k2⟩ := hspec idx ((mergePass buf).get ⟨idx, h2⟩) (buf.get ⟨idx, h1⟩)
      (by simp [List.getElem?_eq_getElem h2]) (by simp [List.getElem?_eq_getElem h1])
    have k1' := (keyeq _ _).mp k1
    refine ⟨k1'.1, k1'.2.1, k1'.2.2, fun p => ?_⟩
    rw [k2 p]
    simp only [InGroup, keyeq]
    constructor
    · rintro ⟨o2, h1, h2, h3⟩
      exact ⟨o2, h1, h2.1, h2.2.1, h2.2.2, h3⟩
    · rintro ⟨o2, h1, h2, h3, h4, h5⟩
      exact ⟨o2, h1, ⟨h2, h3, h4⟩, h5⟩
  · rw [hmem buf1 e1 he1 p, hmem buf2 e2 he2 p, (keyeq e1 e2).mpr hk]
    simp only [InGroup]
    constructor
    · rintro ⟨o, h1, h2⟩
      exact ⟨o, hperm.mem_iff.mp h1, h2⟩
    · rintro ⟨o, h1, h2⟩
      exact ⟨o, hperm.mem_iff.mpr h1, h2⟩
  · simp [mergePass, mergeRow, mergeStep, AvcContext.merge, List.range_succ]

/-- Witness for C10: the buffers `[R, W]` and `[W, R]` of two records with one
subject, object and class are orderings of each other; the first record of
either result has `write` among its permissions exactly when the other has. -/
theorem merge_pass_unions_groups_witness :
    "write".toList ∈
        (⟨"a".toList, "b".toList, "file".toList, ["read".toList, "write".toList]⟩ :
          AvcContext).operation ↔
      "write".toList ∈
        (⟨"a".toList, "b".toList, "file".toList, ["write".toList, "read".toList]⟩ :
          AvcContext).operation :=
  merge_pass_unions_groups.2.1
    [⟨"a".toList, "b".toList, "file".toList, ["read".toList]⟩,
     ⟨"a".toList, "b".toList, "file".toList, ["write".toList]⟩]
    [⟨"a".toList, "b".toList, "file".toList, ["write".toList]⟩,
     ⟨"a".toList, "b".toList, "file".toList, ["read".toList]⟩]
    (List.Perm.swap _ _ _)
    ⟨"a".toList, "b".toList, "file".toList, ["read".toList, "write".toList]⟩ (by decide)
    ⟨"a".toList, "b".toList, "file".toList, ["write".toList, "read".toList]⟩ (by decide)
    ⟨rfl, rfl, rfl⟩ "write".toList

/-! ## A run of `startLogger` -/

/-- A failed `openOutput()` leaves the world as it was and the descriptor at `-1`. -/
theorem OutputContext.openOutput_fail (o : OutputContext) (w : World)
    (h : (o.openOutput w).2 = false) :
    (o.openOutput w).1.1 = w ∧ (o.openOutput w).1.2 = { o with fd := -1 } := by
  unfold OutputContext.openOutput World.open at h ⊢
  by_cases hr : w.refuses o.kFilePath = true
  · simp [hr]
  · simp only [hr] at h ⊢
    cases hl : w.lowestFree with
    | none => simp
    | some fd =>
      rw [hl] at h
      cases hd : w.dir o.kFilePath with
      | some ino =>
        rw [hd] at h
        simp only [Bool.false_eq_true, if_false, ge_iff_le, decide_eq_false_iff_not, not_le] at h
        omega
      | none =>
        rw [hd] at h
        simp only [Bool.false_eq_true, if_false, ge_iff_le, decide_eq_false_iff_not, not_le] at h
        omega

/-- C11: for every logger context, world, filter state and number of rounds the
flag would allow.  First, in every run of `startLogger` in which the source
opens and the own output does not: the world is as before (nothing is written,
no filter output is opened), the filter state is as before (no filter is
evaluated), the source is returned unread, `closeSource` is called once, and
the context differs only in its descriptor, which is `-1`.  Second, when the
source does not open, whether or not the own output could be opened: the world,
the context and the filter state are untouched (no sink is opened) and
`closeSource` is not called. -/
theorem startLogger_without_own_output (BUF_SIZE : Int)
    (parseOneAvcContext : Str → AvcContexts → AvcContexts) (runs : Nat)
    (t : LoggerContext) (w : World) (st : FilterState) :
    (∀ fp : Str, (t.toOutputContext.openOutput w).2 = false →
      (t.startLogger BUF_SIZE parseOneAvcContext (some fp) runs w st).world = w ∧
      (t.startLogger BUF_SIZE parseOneAvcContext (some fp) runs w st).filterState = st ∧
      (t.startLogger BUF_SIZE parseOneAvcContext (some fp) runs w st).source = some fp ∧
      (t.startLogger BUF_SIZE parseOneAvcContext (some fp) runs w st).closeSourceCalls = 1 ∧
      (t.startLogger BUF_SIZE parseOneAvcContext (some fp) runs w st).ctx
        = { t with fd := -1 }) ∧
    ((t.startLogger BUF_SIZE parseOneAvcContext none runs w st).world = w ∧
      (t.startLogger BUF_SIZE parseOneAvcContext none runs w st).filterState = st ∧
      (t.startLogger BUF_SIZE parseOneAvcContext none runs w st).source = none ∧
      (t.startLogger BUF_SIZE parseOneAvcContext none runs w st).closeSourceCalls = 0 ∧
      (t.startLogger BUF_SIZE parseOneAvcContext none runs w st).ctx = t) := by
  refine ⟨fun fp hfail => ?_, rfl, rfl, rfl, rfl, rfl⟩
  obtain ⟨h1, h2⟩ := OutputContext.openOutput_fail t.toOutputContext w hfail
  simp only [LoggerContext.startLogger, hfail, Bool.false_eq_true, if_false, h1, h2, and_self]

/-- Witness for C11: the logcat context with a flag that would allow five rounds.
In a world in which no file can be opened and with a source that holds two
lines, the source is returned unread, `closeSource` is called once and the
filter state is untouched.  In a world in which every file can be opened but
with a source that does not open, `closeSource` is not called, the context
keeps its closed descriptor and no file is created. -/
theorem startLogger_without_own_output_witness :
    ((LoggerContext.fresh.startLogger 4096 (fun _ c => c) (some "a\nb\n".toList) 5
        World.readOnly ⟨none, []⟩).source = some "a\nb\n".toList ∧
      (LoggerContext.fresh.startLogger 4096 (fun _ c => c) (some "a\nb\n".toList) 5
        World.readOnly ⟨none, []⟩).closeSourceCalls = 1 ∧
      (LoggerContext.fresh.startLogger 4096 (fun _ c => c) (some "a\nb\n".toList) 5
        World.readOnly ⟨none, []⟩).filterState = ⟨none, []⟩) ∧
    ((LoggerContext.fresh.startLogger 4096 (fun _ c => c) none 5
        World.empty ⟨none, []⟩).closeSourceCalls = 0 ∧
      (LoggerContext.fresh.startLogger 4096 (fun _ c => c) none 5
        World.empty ⟨none, []⟩).ctx.fd = -1 ∧
      (LoggerContext.fresh.startLogger 4096 (fun _ c => c) none 5
        World.empty ⟨none, []⟩).world.fileAt "/log/boot/logcat.txt".toList = none) :=
  have h := (startLogger_without_own_output 4096 (fun _ c => c) 5 LoggerContext.fresh
    World.readOnly ⟨none, []⟩).1 "a\nb\n".toList (by decide)
  have g := (startLogger_without_own_output 4096 (fun _ c => c) 5 LoggerContext.fresh
    World.empty ⟨none, []⟩).2
  ⟨⟨h.2.2.1, h.2.2.2.1, h.2.1⟩,
   ⟨g.2.2.2.1, by rw [g.2.2.2.2]; rfl, by rw [g.1]; rfl⟩⟩

/-! ## The records of the read loop -/

theorem processLines_append (BUF_SIZE : Int)
    (parseOneAvcContext : Str → AvcContexts → AvcContexts) :
    ∀ (a b : List Str) (t : LoggerContext) (w : World) (st : FilterState),
      LoggerContext.processLines BUF_SIZE parseOneAvcContext (a ++ b) t w st =
        LoggerContext.processLines BUF_SIZE parseOneAvcContext b
          (LoggerContext.processLines BUF_SIZE parseOneAvcContext a t w st).1
          (LoggerContext.processLines BUF_SIZE parseOneAvcContext a t w st).2.1
          (LoggerContext.processLines BUF_SIZE parseOneAvcContext a t w st).2.2 := by
  intro a
  induction a with
  | nil => intro b t w st; rfl
  | cons l a ih =>
    intro b t w st
    simp only [List.cons_append, LoggerContext.processLines]
    exact ih b _ _ _

/-- The read loop does, for the values of `line` listed by `linesRead` and in that
order, the work of the per-line step. -/
theorem readLoop_eq_processLines (BUF_SIZE : Int)
    (parseOneAvcContext : Str → AvcContexts → AvcContexts) :
    ∀ (runs : Nat) (fp : Str) (t : LoggerContext) (w : World) (st : FilterState),
      (LoggerContext.readLoop BUF_SIZE parseOneAvcContext runs fp t w st).2 =
        LoggerContext.processLines BUF_SIZE parseOneAvcContext (linesRead runs fp) t w st := by
  intro runs
  induction runs with
  | zero => intro fp t w st; rfl
  | succ n ih =>
    intro fp t w st
    simp only [LoggerContext.readLoop, linesRead]
    cases hg : fgets 512 fp with
    | none => exact ih fp t w st
    | some br =>
      obtain ⟨buf, rest⟩ := br
      simp only
      rw [processLines_append, ih]

theorem takeLine_length_le : ∀ (k : Nat) (s : Str), (takeLine k s).length ≤ k := by
  intro k
  induction k with
  | zero => intro s; simp [takeLine]
  | succ k ih =>
    intro s
    cases s with
    | nil => simp [takeLine]
    | cons c s =>
      simp only [takeLine]
      split
      · simp
      · simpa using ih s

theorem getlinesAux_length_le :
    ∀ (s cur : Str), ∀ l ∈ getlinesAux cur s, l.length ≤ cur.length + s.length := by
  intro s
  induction s with
  | nil =>
    intro cur l hl
    simp only [getlinesAux] at hl
    split at hl
    · simp at hl
    · simp only [List.mem_singleton] at hl
      subst hl
      simp
  | cons c s ih =>
    intro cur l hl
    simp only [getlinesAux] at hl
    split at hl
    · rcases List.mem_cons.mp hl with h | h
      · subst h
        simp
      · have := ih [] l h
        simp only [List.length_nil, Nat.zero_add] at this
        simp only [List.length_cons]
        omega
    · have := ih (cur ++ [c]) l hl
      simp only [List.length_append, List.length_singleton] at this
      simp only [List.length_cons]
      omega

/-- No record of the read loop is longer than the 511 characters one call of
`fgets` stores. -/
theorem linesRead_length_le :
    ∀ (runs : Nat) (fp : Str), ∀ l ∈ linesRead runs fp, l.length ≤ 511 := by
  intro runs
  induction runs with
  | zero => intro fp l hl; simp [linesRead] at hl
  | succ n ih =>
    intro fp l hl
    simp only [linesRead] at hl
    cases hg : fgets 512 fp with
    | none => rw [hg] at hl; exact ih fp l hl
    | some br =>
      obtain ⟨buf, rest⟩ := br
      rw [hg] at hl
      simp only [List.mem_append] at hl
      rcases hl with hl | hl
      · have h1 := getlinesAux_length_le (cstr buf) [] l hl
        have h2 : (cstr buf).length ≤ buf.length :=
          (List.takeWhile_sublist _).length_le
        have h3 : buf.length ≤ 511 := by
          cases fp with
          | nil => simp [fgets] at hg
          | cons c fp =>
            simp only [fgets, Option.some.injEq, Prod.mk.injEq] at hg
            rw [← hg.1]
            exact takeLine_length_le 511 _
        simp only [List.length_nil, Nat.zero_add] at h1
        omega
      · exact ih rest l hl

theorem takeLine_short : ∀ (line : Str) (k : Nat) (rest : Str),
    (∀ c ∈ line, c ≠ '\n') → line.length < k →
    takeLine k (line ++ '\n' :: rest) = line ++ ['\n'] := by
  intro line
  induction line with
  | nil =>
    intro k rest _ hk
    cases k with
    | zero => omega
    | succ k => simp [takeLine]
  | cons c line ih =>
    intro k rest hc hk
    cases k with
    | zero => simp at hk
    | succ k =>
      have hcn : c ≠ '\n' := hc c (by simp)
      simp only [List.cons_append, takeLine, hcn, if_false, List.cons.injEq, true_and]
      exact ih k rest (fun x hx => hc x (by simp [hx])) (by simpa using hk)

theorem getlinesAux_line : ∀ (line cur : Str), (∀ c ∈ line, c ≠ '\n') →
    getlinesAux cur (line ++ ['\n']) = [cur ++ line] := by
  intro line
  induction line with
  | nil => intro cur _; simp [getlinesAux]
  | cons c line ih =>
    intro cur hc
    have hcn : c ≠ '\n' := hc c (by simp)
    have := ih (cur ++ [c]) (fun x hx => hc x (by simp [hx]))
    simpa [getlinesAux, hcn] using this

theorem cstr_of_no_nul (s : Str) (h : ∀ c ∈ s, c ≠ '\x00') : cstr s = s := by
  unfold cstr
  rw [List.takeWhile_eq_self_iff]
  intro c hc
  simpa using h c hc

theorem linesRead_nil : ∀ runs : Nat, linesRead runs [] = [] := by
  intro runs
  induction runs with
  | zero => rfl
  | succ n ih => simpa [linesRead, fgets] using ih

theorem readLoop_nil_source (BUF_SIZE : Int)
    (parseOneAvcContext : Str → AvcContexts → AvcContexts) :
    ∀ (runs : Nat) (t : LoggerContext) (w : World) (st : FilterState),
      (LoggerContext.readLoop BUF_SIZE parseOneAvcContext runs [] t w st).1 = [] := by
  intro runs
  induction runs with
  | zero => intro t w st; rfl
  | succ n ih => intro t w st; simpa [LoggerContext.readLoop, fgets] using ih t w st

/-- One round of the loop on a source that starts with a short line: `fgets`
stores the line with its newline, and the buffer holds the one line. -/
theorem fgets_short_line (line rest : Str)
    (hlen : line.length ≤ 510) (hc : ∀ c ∈ line, c ≠ '\n' ∧ c ≠ '\x00') :
    fgets 512 (line ++ '\n' :: rest) = some (line ++ ['\n'], rest) ∧
    getlines (cstr (line ++ ['\n'])) = [line] := by
  have ht := takeLine_short line 511 rest (fun c h => (hc c h).1) (by omega)
  constructor
  · cases line with
    | nil => simp [fgets, takeLine]
    | cons c line =>
      simp only [List.cons_append] at ht
      simp only [List.cons_append, fgets, Nat.add_one_sub_one, ht, Option.some.injEq,
        Prod.mk.injEq, true_and]
      have : (c :: (line ++ '\n' :: rest)) = (c :: (line ++ ['\n'])) ++ rest := by simp
      rw [this, List.drop_left]
  · rw [cstr_of_no_nul]
    · simpa [getlines] using getlinesAux_line line [] (fun c h => (hc c h).1)
    · intro c h
      rcases List.mem_append.mp h with h | h
      · exact (hc c h).2
      · simp only [List.mem_singleton] at h
        subst h
        decide

theorem linesRead_short_lines : ∀ (ls : List Str) (runs : Nat),
    (∀ l ∈ ls, l.length ≤ 510 ∧ ∀ c ∈ l, c ≠ '\n' ∧ c ≠ '\x00') →
    linesRead runs (ls.flatMap (fun l => l ++ ['\n'])) = ls.take runs := by
  intro ls
  induction ls with
  | nil => intro runs _; simpa using linesRead_nil runs
  | cons l ls ih =>
    intro runs h
    cases runs with
    | zero => rfl
    | succ n =>
      obtain ⟨h1, h2⟩ := fgets_short_line l (ls.flatMap (fun l => l ++ ['\n']))
        (h l (by simp)).1 (h l (by simp)).2
      simp only [List.flatMap_cons, List.append_assoc, List.singleton_append, linesRead, h1, h2,
        List.take_succ_cons, List.cons.injEq, true_and]
      exact ih n (fun x hx => h x (by simp [hx]))

theorem readLoop_short_lines_rest (BUF_SIZE : Int)
    (parseOneAvcContext : Str → AvcContexts → AvcContexts) :
    ∀ (ls : List Str) (runs : Nat) (t : LoggerContext) (w : World) (st : FilterState),
      (∀ l ∈ ls, l.length ≤ 510 ∧ ∀ c ∈ l, c ≠ '\n' ∧ c ≠ '\x00') →
      (LoggerContext.readLoop BUF_SIZE parseOneAvcContext runs
          (ls.flatMap (fun l => l ++ ['\n'])) t w st).1
        = (ls.drop runs).flatMap (fun l => l ++ ['\n']) := by
  intro ls
  induction ls with
  | nil => intro runs t w st _; simpa using readLoop_nil_source _ _ runs t w st
  | cons l ls ih =>
    intro runs t w st h
    cases runs with
    | zero => rfl
    | succ n =>
      obtain ⟨h1, h2⟩ := fgets_short_line l (ls.flatMap (fun l => l ++ ['\n']))
        (h l (by simp)).1 (h l (by simp)).2
      simp only [List.flatMap_cons, List.append_assoc, List.singleton_append,
        LoggerContext.readLoop, h1, List.drop_succ_cons]
      exact ih n _ _ _ (fun x hx => h x (by simp [hx]))

theorem readLoop_fst (BUF_SIZE : Int)
    (parseOneAvcContext : Str → AvcContexts → AvcContexts) :
    ∀ (runs : Nat) (fp : Str) (t : LoggerContext) (w : World) (st : FilterState),
      (LoggerContext.readLoop BUF_SIZE parseOneAvcContext runs fp t w st).1
        = restAfter runs fp := by
  intro runs
  induction runs with
  | zero => intro fp t w st; rfl
  | succ n ih =>
    intro fp t w st
    simp only [LoggerContext.readLoop, restAfter]
    cases hg : fgets 512 fp with
    | none => exact ih fp t w st
    | some br =>
      obtain ⟨buf, rest⟩ := br
      exact ih rest _ _ _

theorem restAfter_nil : ∀ runs : Nat, restAfter runs [] = [] := by
  intro runs
  induction runs with
  | zero => rfl
  | succ n ih => simpa [restAfter, fgets] using ih

theorem takeLine_long : ∀ (l : Str) (k : Nat) (x : Str),
    (∀ c ∈ l, c ≠ '\n') → k ≤ l.length → takeLine k (l ++ x) = l.take k := by
  intro l
  induction l with
  | nil =>
    intro k x _ hk
    have : k = 0 := by simpa using hk
    subst this
    simp [takeLine]
  | cons c l ih =>
    intro k x hc hk
    cases k with
    | zero => simp [takeLine]
    | succ k =>
      have hcn : c ≠ '\n' := hc c (by simp)
      simp only [List.cons_append, takeLine, hcn, if_false, List.take_succ_cons, List.cons.injEq,
        true_and]
      exact ih k x (fun y hy => hc y (by simp [hy])) (by simpa using hk)

theorem getlinesAux_no_newline : ∀ (p cur : Str), (∀ c ∈ p, c ≠ '\n') → cur ++ p ≠ [] →
    getlinesAux cur p = [cur ++ p] := by
  intro p
  induction p with
  | nil =>
    intro cur _ hne
    have : cur ≠ [] := by simpa using hne
    simp [getlinesAux, this]
  | cons c p ih =>
    intro cur hc _
    have hcn : c ≠ '\n' := hc c (by simp)
    have := ih (cur ++ [c]) (fun y hy => hc y (by simp [hy])) (by simp)
    simpa [getlinesAux, hcn] using this

theorem chunkRecord_line (l : Str) (h : ∀ c ∈ l, c ≠ '\n') :
    chunkRecord (l ++ ['\n']) = l := by
  induction l with
  | nil => simp [chunkRecord]
  | cons c l ih =>
    have hcn : c ≠ '\n' := h c (by simp)
    have := ih (fun y hy => h y (by simp [hy]))
    simp only [chunkRecord] at this ⊢
    simp only [List.cons_append, List.takeWhile_cons, ne_eq, hcn, not_false_eq_true,
      decide_True, if_true, List.cons.injEq, true_and]
    simpa using this

theorem chunkRecord_no_newline (p : Str) (h : ∀ c ∈ p, c ≠ '\n') : chunkRecord p = p := by
  unfold chunkRecord
  rw [List.takeWhile_eq_self_iff]
  intro c hc
  simpa using h c hc

/-- One round of the loop on a source that starts with a line of 511 characters or
more: `fgets` stores the first 511 characters, which are one record. -/
theorem fgets_long_line (l rest : Str)
    (hlen : 511 ≤ l.length) (hc : ∀ c ∈ l, c ≠ '\n' ∧ c ≠ '\x00') :
    fgets 512 (l ++ '\n' :: rest) = some (l.take 511, l.drop 511 ++ '\n' :: rest) ∧
    getlines (cstr (l.take 511)) = [l.take 511] := by
  have ht := takeLine_long l 511 ('\n' :: rest) (fun c h => (hc c h).1) hlen
  have hlt : (l.take 511).length = 511 := by simp [List.length_take]; omega
  constructor
  · cases l with
    | nil => simp at hlen
    | cons c l =>
      simp only [List.cons_append] at ht
      simp only [List.cons_append, fgets, Nat.add_one_sub_one, ht, Option.some.injEq,
        Prod.mk.injEq, true_and]
      rw [hlt]
      have : ((c :: l) ++ '\n' :: rest).drop 511 = (c :: l).drop 511 ++ '\n' :: rest :=
        List.drop_append_of_le_length hlen
      simpa using this
  · rw [cstr_of_no_nul _ (fun c h => (hc c (List.mem_of_mem_take h)).2)]
    have hne : ([] : Str) ++ l.take 511 ≠ [] := by
      intro e
      have := congrArg List.length e
      simp only [List.nil_append, List.length_nil] at this
      omega
    simpa [getlines] using
      getlinesAux_no_newline (l.take 511) [] (fun c h => (hc c (List.mem_of_mem_take h)).1) hne

/-- The rounds spent on one line of the source: the records are the pieces of the
line, one a round, and what is left of the source is the pieces not yet read,
followed by the rest. -/
theorem linesRead_line : ∀ (fuel : Nat) (l : Str), l.length < fuel →
    (∀ c ∈ l, c ≠ '\n' ∧ c ≠ '\x00') → ∀ (runs : Nat) (tail : Str),
    linesRead runs (l ++ '\n' :: tail)
      = ((lineChunksAux fuel l).take runs).map chunkRecord
        ++ linesRead (runs - (lineChunksAux fuel l).length) tail ∧
    restAfter runs (l ++ '\n' :: tail)
      = ((lineChunksAux fuel l).drop runs).flatten
        ++ restAfter (runs - (lineChunksAux fuel l).length) tail := by
  intro fuel
  induction fuel with
  | zero => intro l h; omega
  | succ f ih =>
    intro l hf hc runs tail
    cases runs with
    | zero =>
      by_cases hs : l.length ≤ 510
      · simp [lineChunksAux, hs, linesRead, restAfter]
      · have e : l.take 511 ++ (l.drop 511 ++ '\n' :: tail) = l ++ '\n' :: tail := by
          rw [← List.append_assoc, List.take_append_drop]
        have hfl : (l.drop 511).length < f := by simp [List.length_drop]; omega
        have := (ih (l.drop 511) hfl (fun c h => hc c (List.mem_of_mem_drop h)) 0 tail).2
        simp only [restAfter, List.drop_zero, Nat.zero_sub] at this
        simp only [lineChunksAux, hs, if_false, linesRead, List.take_zero, List.map_nil,
          Nat.zero_sub, List.nil_append, restAfter, List.drop_zero, List.flatten_cons,
          List.append_assoc, true_and]
        rw [← this, e]
    | succ n =>
      by_cases hs : l.length ≤ 510
      · obtain ⟨h1, h2⟩ := fgets_short_line l tail hs hc
        simp [lineChunksAux, hs, linesRead, restAfter, h1, h2,
          chunkRecord_line l (fun c h => (hc c h).1)]
      · have hlen : 511 ≤ l.length := by omega
        obtain ⟨h1, h2⟩ := fgets_long_line l tail hlen hc
        have hfl : (l.drop 511).length < f := by simp [List.length_drop]; omega
        obtain ⟨i1, i2⟩ := ih (l.drop 511) hfl (fun c h => hc c (List.mem_of_mem_drop h)) n tail
        have hr : chunkRecord (l.take 511) = l.take 511 :=
          chunkRecord_no_newline _ (fun c h => (hc c (List.mem_of_mem_take h)).1)
        simp only [lineChunksAux, hs, if_false, linesRead, restAfter, h1, h2, i1, i2,
          List.take_succ_cons, List.map_cons, hr, List.length_cons, Nat.add_sub_add_right,
          List.drop_succ_cons, List.cons_append, List.singleton_append, List.nil_append,
          and_self]

/-- The records and the rest of a source made of newline-terminated lines. -/
theorem linesRead_lines : ∀ (ls : List Str) (runs : Nat),
    (∀ l ∈ ls, ∀ c ∈ l, c ≠ '\n' ∧ c ≠ '\x00') →
    linesRead runs (ls.flatMap (fun l => l ++ ['\n']))
      = ((ls.flatMap lineChunks).take runs).map chunkRecord ∧
    restAfter runs (ls.flatMap (fun l => l ++ ['\n']))
      = ((ls.flatMap lineChunks).drop runs).flatten := by
  intro ls
  induction ls with
  | nil => intro runs _; simp [linesRead_nil, restAfter_nil]
  | cons l ls ih =>
    intro runs h
    obtain ⟨h1, h2⟩ := linesRead_line (l.length + 1) l (by omega) (h l (by simp)) runs
      (ls.flatMap (fun l => l ++ ['\n']))
    obtain ⟨i1, i2⟩ := ih (runs - (lineChunks l).length) (fun x hx => h x (by simp [hx]))
    simp only [List.flatMap_cons, List.append_assoc, List.singleton_append]
    rw [h1, h2]
    simp only [lineChunks] at i1 i2 ⊢
    rw [i1, i2, List.take_append_eq_append_take, List.drop_append_eq_append_drop]
    simp

theorem lineChunksAux_fuel : ∀ (f g : Nat) (l : Str), l.length < f → l.length < g →
    lineChunksAux f l = lineChunksAux g l := by
  intro f
  induction f with
  | zero => intro g l h; omega
  | succ f ih =>
    intro g l hf hg
    cases g with
    | zero => omega
    | succ g =>
      simp only [lineChunksAux]
      split
      · rfl
      · rw [ih g (l.drop 511) (by simp [List.length_drop]; omega)
          (by simp [List.length_drop]; omega)]

/-- How a line is cut: a line of at most 510 characters is one piece; of a longer
line the first 511 characters are a piece, followed by the pieces of the rest. -/
theorem lineChunks_eq (l : Str) :
    (l.length ≤ 510 → lineChunks l = [l ++ ['\n']]) ∧
    (510 < l.length → lineChunks l = l.take 511 :: lineChunks (l.drop 511)) := by
  constructor
  · intro h
    simp [lineChunks, lineChunksAux, h]
  · intro h
    have hs : ¬ l.length ≤ 510 := by omega
    have hd : (l.drop 511).length = l.length - 511 := List.length_drop 511 l
    show lineChunksAux (l.length + 1) l
      = l.take 511 :: lineChunksAux ((l.drop 511).length + 1) (l.drop 511)
    rw [lineChunksAux, if_neg hs]
    refine congrArg _ ?_
    apply lineChunksAux_fuel <;> omega

/-- C12, as the code has it: for every source made of newline-terminated lines
without NUL characters and every number of rounds, the records passed to the
filters and written to the own output are, one a round and in order, the pieces
of the lines, and the rest of the source is the pieces not yet read.  A line of
at most 510 characters is one piece, the complete line; of a longer line the
first 511 characters are a piece and what follows is cut in the same way, each
piece a record of its own.  So when every line holds at most 510 characters the
records are the first `runs` lines, each whole.  In general a record holds at
most the 511 characters one call of `fgets` stores. -/
theorem read_loop_records_are_line_pieces (BUF_SIZE : Int)
    (parseOneAvcContext : Str → AvcContexts → AvcContexts)
    (ls : List Str) (runs : Nat) (t : LoggerContext) (w : World) (st : FilterState)
    (hclean : ∀ l ∈ ls, ∀ c ∈ l, c ≠ '\n' ∧ c ≠ '\x00') :
    linesRead runs (ls.flatMap (fun l => l ++ ['\n']))
      = ((ls.flatMap lineChunks).take runs).map chunkRecord ∧
    (LoggerContext.readLoop BUF_SIZE parseOneAvcContext runs
        (ls.flatMap (fun l => l ++ ['\n'])) t w st).1
      = ((ls.flatMap lineChunks).drop runs).flatten ∧
    (LoggerContext.readLoop BUF_SIZE parseOneAvcContext runs
        (ls.flatMap (fun l => l ++ ['\n'])) t w st).2
      = LoggerContext.processLines BUF_SIZE parseOneAvcContext
          (((ls.flatMap lineChunks).take runs).map chunkRecord) t w st ∧
    (∀ l : Str, (l.length ≤ 510 → lineChunks l = [l ++ ['\n']]) ∧
      (510 < l.length → lineChunks l = l.take 511 :: lineChunks (l.drop 511))) ∧
    ((∀ l ∈ ls, l.length ≤ 510) →
      linesRead runs (ls.flatMap (fun l => l ++ ['\n'])) = ls.take runs ∧
      (LoggerContext.readLoop BUF_SIZE parseOneAvcContext runs
          (ls.flatMap (fun l => l ++ ['\n'])) t w st).1
        = (ls.drop runs).flatMap (fun l => l ++ ['\n']) ∧
      (LoggerContext.readLoop BUF_SIZE parseOneAvcContext runs
          (ls.flatMap (fun l => l ++ ['\n'])) t w st).2
        = LoggerContext.processLines BUF_SIZE parseOneAvcContext (ls.take runs) t w st) ∧
    ∀ (n : Nat) (fp : Str), ∀ l ∈ linesRead n fp, l.length ≤ 511 := by
  obtain ⟨h1, h2⟩ := linesRead_lines ls runs hclean
  refine ⟨h1, ?_, ?_, lineChunks_eq, fun hshort => ?_, linesRead_length_le⟩
  · rw [readLoop_fst, h2]
  · rw [readLoop_eq_processLines, h1]
  · have hs : ∀ l ∈ ls, l.length ≤ 510 ∧ ∀ c ∈ l, c ≠ '\n' ∧ c ≠ '\x00' :=
      fun l hl => ⟨hshort l hl, hclean l hl⟩
    refine ⟨linesRead_short_lines ls runs hs,
      readLoop_short_lines_rest BUF_SIZE parseOneAvcContext ls runs t w st hs, ?_⟩
    rw [readLoop_eq_processLines, linesRead_short_lines ls runs hs]

set_option maxRecDepth 20000 in
/-- Witness for C12: a source with a line of 600 characters followed by two short
lines, six rounds: the long line gives two records, of 511 and of 89
characters, and each short line is passed on whole. -/
theorem read_loop_records_are_line_pieces_witness :
    linesRead 6
        ([List.replicate 600 'a', "short one".toList, "last".toList].flatMap
          (fun l => l ++ ['\n']))
      = [List.replicate 511 'a', List.replicate 89 'a', "short one".toList, "last".toList] :=
  (read_loop_records_are_line_pieces 4096 (fun _ c => c)
    [List.replicate 600 'a', "short one".toList, "last".toList] 6 LoggerContext.sample
    World.sample ⟨none, []⟩ (by decide)).1.trans (by decide)

set_option maxRecDepth 20000 in
/-- Counterexample to C12 as stated: a source line of 600 characters is longer than
the buffer; the loop passes it on as two records, of 511 and of 89 characters,
not as the one line. -/
theorem read_loop_splits_long_line :
    linesRead 2 (List.replicate 600 'a' ++ ['\n'])
      = [List.replicate 511 'a', List.replicate 89 'a'] ∧
    linesRead 2 (List.replicate 600 'a' ++ ['\n']) ≠ [List.replicate 600 'a'] := by
  have h : linesRead 2 (List.replicate 600 'a' ++ ['\n'])
      = [List.replicate 511 'a', List.replicate 89 'a'] := by decide
  refine ⟨h, ?_⟩
  rw [h]
  intro e
  have := congrArg List.length e
  simp at this

/-! ## The boot-time record -/

/-- Counterexample to C13 as stated: for an uptime of 75 seconds the text has a
space between the minutes and the seconds, and for an uptime of 45 seconds it
has no minutes part at all; neither is of the form `XmYs`. -/
theorem recordBootTime_format :
    recordBootTime "bootlogger".toList (some 75)
      = some "bootlogger: Boot completed in 1m 15s".toList ∧
    recordBootTime "bootlogger".toList (some 75)
      ≠ some "bootlogger: Boot completed in 1m15s".toList ∧
    recordBootTime "bootlogger".toList (some 45)
      = some "bootlogger: Boot completed in 45s".toList ∧
    recordBootTime "bootlogger".toList (some 45)
      ≠ some "bootlogger: Boot completed in 0m45s".toList := by
  decide

/-- C13, as the code has it: for every uptime `u` in whole seconds that `sysinfo`
reports, with `X = u / 60` and `Y = u - 60 * X`, the text `recordBootTime`
writes is the tag, `: Boot completed in `, then `X`, `m` and a space when
`X > 0` and nothing when `X = 0`, then `Y` and `s`; and `60 * X + Y = u` with
`Y < 60`. -/
theorem recordBootTime_text (LOG_TAG : Str) (u : Nat) :
    recordBootTime LOG_TAG (some u) =
      some (LOG_TAG ++ ": Boot completed in ".toList ++
        (if 0 < u / 60 then to_string (u / 60) ++ "m ".toList else []) ++
        to_string (u - 60 * (u / 60)) ++ "s".toList) ∧
    60 * (u / 60) + (u - 60 * (u / 60)) = u ∧
    u - 60 * (u / 60) < 60 := by
  refine ⟨?_, by omega, by omega⟩
  simp only [recordBootTime, gt_iff_lt, Nat.mul_comm (u / 60) 60]
  split <;> simp

end Logger
